import Mathlib

/-!
# Total power of all contiguous groups

A verification development for the `findTotalPower` implementations of the
repository: the brute-force double loop (`solution.cpp`), the contribution
technique with a monotonic stack (`final_solution.cpp`), the per-`l` closed
form with reduced prefix sums (`solution_fast.cpp`), the enumerating variant
with unreduced prefix sums (`findTotalPower_optimized.cpp`), the O(n^3) brute
force (`findTotalPower.cpp`), `solution_optimal.cpp` and `solution_O_n.cpp`.

C++ `int` and `long long` values are embedded as `Int`; every `long long`
product or sum that the source computes is passed through `wrap64`
(two's-complement wrap-around), `%` is the truncating `Int.tmod`, vectors are
lists and the index stack is a list whose head is the top.
-/

set_option autoImplicit false

namespace TotalPower

/-! ## Machine arithmetic -/

/-- The constant `MOD` shared by every source file. -/
def MOD : Int := 1000000007

/-- Two's-complement wrap-around of a signed 64-bit `long long`. -/
def wrap64 (x : Int) : Int := (x + 2 ^ 63) % 2 ^ 64 - 2 ^ 63

/-- Two's-complement wrap-around of a signed 32-bit `int`, the cast `(int)x`. -/
def wrap32 (x : Int) : Int := (x + 2 ^ 31) % 2 ^ 32 - 2 ^ 31

/-- The read `power[k]` of a vector element. -/
def nth (power : List Int) (k : Nat) : Int := power.getD k 0

/-- The read `v[j]` of a vector at an `int` index `j`. -/
def nthI (power : List Int) (j : Int) : Int := power.getD j.toNat 0

/-- The values `a, a+1, ..., b-1` taken by `j` in `for (int j = a; j < b; j++)`. -/
def intRange (a b : Int) : List Int := (List.range (b - a).toNat).map (fun (k : Nat) => a + (k : Int))

/-! ## Boundary discovery: the two monotonic-stack passes

All stack variants share the same two loops
(`final_solution.cpp` lines 30-49). -/

/-- The inner loop `while (!st.empty() && c(power[st.top()], x)) st.pop();`. -/
def popWhile (c : Int → Int → Bool) (power : List Int) (x : Int) : List Nat → List Nat
  | [] => []
  | t :: st => if c (nth power t) x then popWhile c power x st else t :: st

/-- The expression `st.empty() ? dflt : st.top()`. -/
def topOr (dflt : Int) : List Nat → Int
  | [] => dflt
  | t :: _ => (t : Int)

/-- One iteration of a boundary loop at index `i`: pop, record the boundary of
`i`, push `i`.  The state is the stack and the boundary vector. -/
def passStep (c : Int → Int → Bool) (dflt : Int) (power : List Int)
    (s : List Nat × List Int) (i : Nat) : List Nat × List Int :=
  let st := popWhile c power (nth power i) s.1
  (i :: st, s.2.set i (topOr dflt st))

/-- The first pass, `for (int i = 0; i < n; i++)`, popping while
`power[st.top()] >= power[i]`, with sentinel `-1`. -/
def prevSmallerPass (power : List Int) : List Nat × List Int :=
  (List.range power.length).foldl
    (passStep (fun a b => decide (a ≥ b)) (-1) power)
    ([], List.replicate power.length 0)

/-- The second pass, `for (int i = n - 1; i >= 0; i--)` on the emptied stack,
popping while `power[st.top()] > power[i]`, with sentinel `n`. -/
def nextSmallerPass (power : List Int) : List Nat × List Int :=
  (List.range power.length).reverse.foldl
    (passStep (fun a b => decide (a > b)) (power.length : Int) power)
    ([], List.replicate power.length 0)

/-- The vector `prevSmaller` after the first pass. -/
def prevSmaller (power : List Int) : List Int := (prevSmallerPass power).2

/-- The vector `nextSmaller` after the second pass. -/
def nextSmaller (power : List Int) : List Int := (nextSmallerPass power).2

/-! ## `final_solution.cpp` -/

namespace FinalSolution

/-- The helper `mod`: `((x % MOD) + MOD) % MOD`. -/
def mod (x : Int) : Int := ((x.tmod MOD) + MOD).tmod MOD

/-- The variable `leftCount` in the body of the `j` loop (lines 68-74). -/
def leftCount (L i j : Int) : Int := if j ≤ i then j - L else i - L

/-- The variable `rightCount` in the body of the `j` loop (lines 68-74). -/
def rightCount (R i j : Int) : Int := if j ≤ i then R - i else R - j

/-- The body of the `j` loop (lines 66-78), as a function of `sumOfSums`. -/
def sumOfSumsStep (power : List Int) (L R i : Int) (sumOfSums j : Int) : Int :=
  let freq := mod (wrap64 (leftCount L i j * rightCount R i j))
  let contribution := mod (wrap64 (freq * nthI power j))
  mod (wrap64 (sumOfSums + contribution))

/-- The value of `sumOfSums` after `for (int j = L + 1; j < R; j++)`. -/
def sumOfSums (power : List Int) (L R i : Int) : Int :=
  (intRange (L + 1) R).foldl (sumOfSumsStep power L R i) 0

/-- The body of the outer loop (lines 53-83), as a function of `answer`. -/
def answerStep (power prevSmaller nextSmaller : List Int) (answer : Int) (i : Nat) : Int :=
  let L := nth prevSmaller i
  let R := nth nextSmaller i
  let totalContribution := mod (wrap64 (nth power i * sumOfSums power L R i))
  mod (wrap64 (answer + totalContribution))

/-- The function `findTotalPower` of `final_solution.cpp`. -/
def findTotalPower (power : List Int) : Int :=
  wrap32 ((List.range power.length).foldl
    (answerStep power (prevSmaller power) (nextSmaller power)) 0)

end FinalSolution

/-! ## `solution.cpp`: the brute-force reference -/

namespace Solution

/-- The body of the `r` loop (lines 27-37); the state is
`(minPower, sumPower, totalPower)`. -/
def innerStep (power : List Int) (s : Int × Int × Int) (r : Nat) : Int × Int × Int :=
  let minPower := min s.1 (nth power r)
  let sumPower := wrap64 (s.2.1 + nth power r)
  let groupPower := (wrap64 (minPower * sumPower)).tmod MOD
  (minPower, sumPower, (wrap64 (s.2.2 + groupPower)).tmod MOD)

/-- The body of the `l` loop (lines 22-38), as a function of `totalPower`. -/
def outerStep (power : List Int) (totalPower : Int) (l : Nat) : Int :=
  ((List.range' l (power.length - l)).foldl (innerStep power) (nth power l, 0, totalPower)).2.2

/-- The function `findTotalPower` of `solution.cpp`. -/
def findTotalPower (power : List Int) : Int :=
  wrap32 ((List.range power.length).foldl (outerStep power) 0)

end Solution

/-! ## `solution_fast.cpp` -/

namespace SolutionFast

/-- The prefix-sum loop (lines 50-53):
`prefixSum[i + 1] = (prefixSum[i] + power[i]) % MOD` on a zero vector of
length `n + 1`. -/
def prefixSum (power : List Int) : List Int :=
  (List.range power.length).foldl
    (fun ps i => ps.set (i + 1) ((wrap64 (nth ps i + nth power i)).tmod MOD))
    (List.replicate (power.length + 1) 0)

/-- The normalised difference of lines 77-78:
`t = (x - y) % MOD; if (t < 0) t += MOD;`. -/
def normDiff (x y : Int) : Int :=
  let t := (wrap64 (x - y)).tmod MOD
  if t < 0 then t + MOD else t

/-- The body of the `l` loop (lines 72-86), as a function of
`sumContribution`. -/
def sumContributionStep (ps : List Int) (right i : Int) (sumContribution l : Int) : Int :=
  let count := right - i
  let totalRangeSum := normDiff (nthI ps right) (nthI ps i)
  let c1 := (wrap64 (count * nthI ps i)).tmod MOD
  let c2 := (wrap64 (c1 - wrap64 (count * nthI ps l))).tmod MOD
  let c3 := if c2 < 0 then wrap64 (c2 + MOD) else c2
  let contribution := (wrap64 (c3 + totalRangeSum)).tmod MOD
  (wrap64 (sumContribution + contribution)).tmod MOD

/-- The body of the outer loop (lines 56-91), as a function of `totalPower`. -/
def totalStep (power prevSmaller nextSmaller ps : List Int) (totalPower : Int) (i : Nat) : Int :=
  let left := nth prevSmaller i
  let right := nth nextSmaller i
  let sumContribution := (intRange (left + 1) ((i : Int) + 1)).foldl
    (sumContributionStep ps right i) 0
  let powerContribution := (wrap64 (sumContribution * nth power i)).tmod MOD
  (wrap64 (totalPower + powerContribution)).tmod MOD

/-- The function `findTotalPower` of `solution_fast.cpp`. -/
def findTotalPower (power : List Int) : Int :=
  wrap32 ((List.range power.length).foldl
    (totalStep power (prevSmaller power) (nextSmaller power) (prefixSum power)) 0)

end SolutionFast

/-! ## `findTotalPower_optimized.cpp` -/

namespace Optimized

/-- The prefix-sum loop of `findTotalPower_optimized.cpp` (lines 44-47):
`prefixSum[i + 1] = prefixSum[i] + power[i]`, not reduced. -/
def prefixSum (power : List Int) : List Int :=
  (List.range power.length).foldl
    (fun ps i => ps.set (i + 1) (wrap64 (nth ps i + nth power i)))
    (List.replicate (power.length + 1) 0)

/-- The body of the `r` loop (lines 64-65), as a function of `contribution`. -/
def contributionStep (ps : List Int) (l : Int) (contribution r : Int) : Int :=
  let rangeSum := wrap64 (nthI ps (r + 1) - nthI ps l)
  (wrap64 (contribution + rangeSum)).tmod MOD

/-- The value of `contribution` after the `l`, `r` double loop (lines 60-67). -/
def contribution (ps : List Int) (left right i : Int) : Int :=
  (intRange (left + 1) (i + 1)).foldl
    (fun c l => (intRange i right).foldl (contributionStep ps l) c) 0

/-- The body of the outer loop (lines 50-72), as a function of `totalPower`. -/
def totalStep (power prevSmaller nextSmaller ps : List Int) (totalPower : Int) (i : Nat) : Int :=
  let left := nth prevSmaller i
  let right := nth nextSmaller i
  let c := (wrap64 (contribution ps left right i * nth power i)).tmod MOD
  (wrap64 (totalPower + c)).tmod MOD

/-- The function `findTotalPower` of `findTotalPower_optimized.cpp`. -/
def findTotalPower (power : List Int) : Int :=
  wrap32 ((List.range power.length).foldl
    (totalStep power (prevSmaller power) (nextSmaller power) (prefixSum power)) 0)

end Optimized

/-! ## Notions used by the statements and the invariants -/

/-- What a pass has to record for index `k`: the sentinel when every index
processed before `k` is popped by `k`, and otherwise the latest processed
index `t` that `k` does not pop. -/
def Boundary (lt : Nat → Nat → Prop) (c : Int → Int → Bool) (dflt : Int) (power : List Int)
    (all : List Nat) (k : Nat) (v : Int) : Prop :=
  (v = dflt ∧ ∀ j ∈ all, lt j k → c (nth power j) (nth power k) = true) ∨
  (∃ t : Nat, v = (t : Int) ∧ t ∈ all ∧ lt t k ∧ c (nth power t) (nth power k) = false ∧
    ∀ j ∈ all, lt t j → lt j k → c (nth power j) (nth power k) = true)

/-- The loop invariant of a pass after the indices `done` have been processed. -/
structure PassInv (lt : Nat → Nat → Prop) (c : Int → Int → Bool) (dflt : Int)
    (power : List Int) (all done : List Nat) (s : List Nat × List Int) : Prop where
  len : s.2.length = power.length
  mem : ∀ t ∈ s.1, t ∈ done
  sorted : s.1.Pairwise (fun a b => lt b a)
  covered : ∀ j ∈ done, j ∉ s.1 → ∃ t ∈ s.1, lt j t ∧ c (nth power j) (nth power t) = true
  recorded : ∀ k ∈ done, Boundary lt c dflt power all k (nth s.2 k)

/-- The first index `prevSmaller[i] + 1` of the window of `i`. -/
def winLo (power : List Int) (i : Nat) : Nat := (nth (prevSmaller power) i + 1).toNat

/-- The end `nextSmaller[i]` (exclusive) of the window of `i`. -/
def winHi (power : List Int) (i : Nat) : Nat := (nth (nextSmaller power) i).toNat

/-- The window test `prevSmaller[i] < l <= i <= r < nextSmaller[i]`. -/
def InWindow (power : List Int) (i l r : Nat) : Prop :=
  nth (prevSmaller power) i < (l : Int) ∧ l ≤ i ∧ i ≤ r ∧ (r : Int) < nth (nextSmaller power) i

instance decidableInWindow (power : List Int) (i l r : Nat) :
    Decidable (InWindow power i l r) := by
  unfold InWindow; infer_instance

/-- The minimum of `power[l], ..., power[l + d]`. -/
def minFrom (power : List Int) (l : Nat) : Nat → Int
  | 0 => nth power l
  | d + 1 => min (minFrom power l d) (nth power (l + d + 1))

/-- The quantity `min(power[l..r])` for `l <= r`. -/
def subMin (power : List Int) (l r : Nat) : Int := minFrom power l (r - l)

/-- The quantity `sum(power[l..r])`. -/
def subSum (power : List Int) (l r : Nat) : Int := ∑ k ∈ Finset.Icc l r, nth power k

/-- Index `i` is the designated position of the minimum of `power[l..r]`: it
holds the minimum, and no later position of the subarray does (ties are broken
towards the right, as strict on the left and non-strict on the right
prescribes). -/
def IsDesignatedMin (power : List Int) (l r i : Nat) : Prop :=
  l ≤ i ∧ i ≤ r ∧ nth power i = subMin power l r ∧
    ∀ k, i < k → k ≤ r → nth power k ≠ subMin power l r

/-- The exact value accumulated by the `j` loop of `final_solution.cpp`: the
collapsed sum of `power[j] * countLeft(j) * countRight(j)` over `j` in `(L, R)`. -/
def collapsedSum (power : List Int) (L R i : Int) : Int :=
  ∑ j ∈ Finset.Ioo L R,
    FinalSolution.leftCount L i j * FinalSolution.rightCount R i j * nthI power j

/-- The enumerated double sum over `l` in `(L, i]` and `r` in `[i, R)` of
`sum(power[l..r])`. -/
def enumeratedSum (power : List Int) (L R i : Int) : Int :=
  ∑ l ∈ Finset.Ioc L i, ∑ r ∈ Finset.Ico i R, ∑ k ∈ Finset.Icc l r, nthI power k

/-- The exact sum over all `0 <= l <= r < n` of
`min(power[l..r]) * sum(power[l..r])`. -/
def bruteForceSum (power : List Int) : Int :=
  ∑ l ∈ Finset.range power.length, ∑ r ∈ Finset.Ico l power.length,
    subMin power l r * subSum power l r

/-- The specified result: the brute-force sum reduced modulo `1000000007`. -/
def specTotalPower (power : List Int) : Int := bruteForceSum power % MOD

/-- The exact prefix sum `power[0] + ... + power[k-1]`. -/
def exactPrefixSum (power : List Int) (k : Nat) : Int := ∑ j ∈ Finset.range k, nth power j

/-! ## `final_solution.cpp` with checked reads

The same two passes, where reading `st.top()` on an empty stack, or reading or
writing a vector outside its bounds, is an error (`none`). -/

/-- The checked loop `while (!st.empty() && c(power[st.top()], x)) st.pop();`:
the emptiness test comes first, then `st.top()` and `power[st.top()]` are read. -/
def popWhileChecked (c : Int → Int → Bool) (power : List Int) (x : Int)
    (st : List Nat) : Option (List Nat) :=
  if st.isEmpty then some st
  else
    match st.head? with
    | none => none
    | some t =>
      match power[t]? with
      | none => none
      | some v => if c v x then popWhileChecked c power x st.tail else some st
termination_by st.length
decreasing_by
  cases st with
  | nil => simp at *
  | cons a l => simp

/-- The checked expression `st.empty() ? dflt : st.top()`. -/
def topOrChecked (dflt : Int) (st : List Nat) : Option Int :=
  if st.isEmpty then some dflt else st.head?.map (fun t => (t : Int))

/-- One checked iteration of a boundary loop at index `i`. -/
def passStepChecked (c : Int → Int → Bool) (dflt : Int) (power : List Int)
    (s : List Nat × List Int) (i : Nat) : Option (List Nat × List Int) :=
  match power[i]? with
  | none => none
  | some x =>
    match popWhileChecked c power x s.1 with
    | none => none
    | some st =>
      match topOrChecked dflt st with
      | none => none
      | some b => if i < s.2.length then some (i :: st, s.2.set i b) else none

/-- A checked boundary loop over the indices `is`, stopping at the first error. -/
def passChecked (c : Int → Int → Bool) (dflt : Int) (power : List Int) :
    List Nat → List Nat × List Int → Option (List Nat × List Int)
  | [], s => some s
  | i :: is, s =>
    match passStepChecked c dflt power s i with
    | none => none
    | some s' => passChecked c dflt power is s'

/-- The checked first pass. -/
def prevSmallerPassChecked (power : List Int) : Option (List Nat × List Int) :=
  passChecked (fun a b => decide (a ≥ b)) (-1) power (List.range power.length)
    ([], List.replicate power.length 0)

/-- The checked second pass. -/
def nextSmallerPassChecked (power : List Int) : Option (List Nat × List Int) :=
  passChecked (fun a b => decide (a > b)) (power.length : Int) power
    (List.range power.length).reverse ([], List.replicate power.length 0)

/-! ## `final_solution.cpp` over unbounded integers, and with a log

`FinalSolution.findTotalPowerExact` is the same computation with no
wrap-around anywhere.  The logged variant runs the 64-bit computation and
records, before it is wrapped, every value of `leftCount * rightCount`,
`freq * power[j]`, `sumOfSums + contribution`, `power[i] * sumOfSums` and
`answer + totalContribution`. -/

namespace FinalSolution

/-- The body of the `j` loop over unbounded integers. -/
def sumOfSumsStepExact (power : List Int) (L R i : Int) (sumOfSums j : Int) : Int :=
  let freq := mod (leftCount L i j * rightCount R i j)
  let contribution := mod (freq * nthI power j)
  mod (sumOfSums + contribution)

/-- The value of `sumOfSums` after the `j` loop, over unbounded integers. -/
def sumOfSumsExact (power : List Int) (L R i : Int) : Int :=
  (intRange (L + 1) R).foldl (sumOfSumsStepExact power L R i) 0

/-- The body of the outer loop over unbounded integers. -/
def answerStepExact (power prevSmaller nextSmaller : List Int) (answer : Int) (i : Nat) : Int :=
  let L := nth prevSmaller i
  let R := nth nextSmaller i
  let totalContribution := mod (nth power i * sumOfSumsExact power L R i)
  mod (answer + totalContribution)

/-- The function `findTotalPower` of `final_solution.cpp` over unbounded
integers. -/
def findTotalPowerExact (power : List Int) : Int :=
  (List.range power.length).foldl
    (answerStepExact power (prevSmaller power) (nextSmaller power)) 0

/-- The body of the `j` loop with a log; the state is `(sumOfSums, log)`. -/
def sumOfSumsStepLog (power : List Int) (L R i : Int) (s : Int × List Int) (j : Int) :
    Int × List Int :=
  let p1 := leftCount L i j * rightCount R i j
  let freq := mod (wrap64 p1)
  let p2 := freq * nthI power j
  let contribution := mod (wrap64 p2)
  let p3 := s.1 + contribution
  (mod (wrap64 p3), s.2 ++ [p1, p2, p3])

/-- The body of the outer loop with a log; the state is `(answer, log)`. -/
def answerStepLog (power prevSmaller nextSmaller : List Int) (s : Int × List Int) (i : Nat) :
    Int × List Int :=
  let L := nth prevSmaller i
  let R := nth nextSmaller i
  let inner := (intRange (L + 1) R).foldl (sumOfSumsStepLog power L R i) (0, s.2)
  let p4 := nth power i * inner.1
  let totalContribution := mod (wrap64 p4)
  let p5 := s.1 + totalContribution
  (mod (wrap64 p5), inner.2 ++ [p4, p5])

/-- The 64-bit run of the three loops with its log: `(answer, log)`. -/
def findTotalPowerLog (power : List Int) : Int × List Int :=
  (List.range power.length).foldl
    (answerStepLog power (prevSmaller power) (nextSmaller power)) (0, [])

/-- Every intermediate value of the run, before wrap-around. -/
def intermediates (power : List Int) : List Int := (findTotalPowerLog power).2

end FinalSolution

/-- A value fits a signed 64-bit `long long`. -/
def InInt64 (v : Int) : Prop := -2 ^ 63 ≤ v ∧ v < 2 ^ 63

/-! ## The stack during a pass -/

/-- The state `(st, prevSmaller)` of the first pass after its first `k`
iterations, that is after index `k - 1` has been pushed. -/
def prevSmallerPassAfter (power : List Int) (k : Nat) : List Nat × List Int :=
  ((List.range power.length).take k).foldl
    (passStep (fun a b => decide (a ≥ b)) (-1) power)
    ([], List.replicate power.length 0)

/-- The state `(st, nextSmaller)` of the second pass after its first `k`
iterations, that is after index `n - k` has been pushed. -/
def nextSmallerPassAfter (power : List Int) (k : Nat) : List Nat × List Int :=
  ((List.range power.length).reverse.take k).foldl
    (passStep (fun a b => decide (a > b)) (power.length : Int) power)
    ([], List.replicate power.length 0)

/-! ## `findTotalPower.cpp`: the O(n^3) brute force -/

namespace FindTotalPower

/-- The value of `minPower` after the loop of lines 22-25 for the group `[l, r]`. -/
def minPower (power : List Int) (l r : Nat) : Int :=
  (List.range' l (r + 1 - l)).foldl (fun m i => min m (nth power i)) (nth power l)

/-- The value of `sumPower` after the loop of lines 28-31 for the group `[l, r]`. -/
def sumPower (power : List Int) (l r : Nat) : Int :=
  (List.range' l (r + 1 - l)).foldl (fun s i => wrap64 (s + nth power i)) 0

/-- The body of the `r` loop (lines 20-38), as a function of `totalPower`. -/
def innerStep (power : List Int) (l : Nat) (totalPower : Int) (r : Nat) : Int :=
  let groupPower := (wrap64 (minPower power l r * sumPower power l r)).tmod MOD
  (wrap64 (totalPower + groupPower)).tmod MOD

/-- The body of the `l` loop (lines 19-39), as a function of `totalPower`. -/
def outerStep (power : List Int) (totalPower : Int) (l : Nat) : Int :=
  (List.range' l (power.length - l)).foldl (innerStep power l) totalPower

/-- The function `findTotalPower` of `findTotalPower.cpp`. -/
def findTotalPower (power : List Int) : Int :=
  wrap32 ((List.range power.length).foldl (outerStep power) 0)

end FindTotalPower

/-! ## `solution_optimal.cpp` -/

namespace SolutionOptimal

/-- The variable `selfContribution` (line 63):
`((long long)power[i] * leftCount % MOD * rightCount % MOD) % MOD`. -/
def selfContribution (power : List Int) (left right : Int) (i : Nat) : Int :=
  let leftCount := (i : Int) - left
  let rightCount := right - (i : Int)
  ((wrap64 ((wrap64 (nth power i * leftCount)).tmod MOD * rightCount)).tmod MOD).tmod MOD

/-- The body of the loop over the elements to the left of `i` (lines 67-74). -/
def leftStep (power : List Int) (left right i : Int) (sumOfSums j : Int) : Int :=
  let count := (wrap64 ((j - left) * (right - i))).tmod MOD
  let contribution := (wrap64 (count * nthI power j)).tmod MOD
  (wrap64 (sumOfSums + contribution)).tmod MOD

/-- The body of the loop over the elements to the right of `i` (lines 77-83). -/
def rightStep (power : List Int) (left right i : Int) (sumOfSums j : Int) : Int :=
  let count := (wrap64 ((i - left) * (right - j))).tmod MOD
  let contribution := (wrap64 (count * nthI power j)).tmod MOD
  (wrap64 (sumOfSums + contribution)).tmod MOD

/-- The value of `sumOfSums` at line 85, after the self contribution and the
two loops. -/
def sumOfSums (power : List Int) (left right : Int) (i : Nat) : Int :=
  let s0 := (wrap64 (0 + selfContribution power left right i)).tmod MOD
  let s1 := (intRange (left + 1) i).foldl (leftStep power left right i) s0
  (intRange ((i : Int) + 1) right).foldl (rightStep power left right i) s1

/-- The body of the outer loop (lines 48-88), as a function of `result`. -/
def resultStep (power prevSmaller nextSmaller : List Int) (result : Int) (i : Nat) : Int :=
  let left := nth prevSmaller i
  let right := nth nextSmaller i
  let totalContribution := (wrap64 (nth power i * sumOfSums power left right i)).tmod MOD
  (wrap64 (result + totalContribution)).tmod MOD

/-- The function `findTotalPower` of `solution_optimal.cpp`. -/
def findTotalPower (power : List Int) : Int :=
  wrap32 ((List.range power.length).foldl
    (resultStep power (prevSmaller power) (nextSmaller power)) 0)

end SolutionOptimal

/-! ## `solution_O_n.cpp`, with a counter of `j`-loop iterations

Its boundary arrays `left`, `right` are built by the same two passes.  The
arrays `sumLeft` and `sumRight` (lines 49-60) are filled but never read, and
the first two assignments of `leftRange`, `rightRange` (lines 77-78) are
overwritten before use; they do not enter the result. -/

namespace SolutionOn

/-- The helper `mod` of `solution_O_n.cpp`: `((x % MOD) + MOD) % MOD`. -/
def mod (x : Int) : Int := ((x.tmod MOD) + MOD).tmod MOD

/-- The body of the `j` loop (lines 76-91); the state is `(totalSum, count)`,
where `count` is the number of executions of the body so far. -/
def totalSumStep (power : List Int) (L R i : Int) (s : Int × Nat) (j : Int) : Int × Nat :=
  let leftRange := if j ≤ i then j - L else i - L
  let rightRange := if j ≤ i then R - i else R - j
  let count := mod (wrap64 (leftRange * rightRange))
  let contribution := mod (wrap64 (count * nthI power j))
  (mod (wrap64 (s.1 + contribution)), s.2 + 1)

/-- The body of the outer loop (lines 63-96); the state is `(result, count)`. -/
def resultStep (power left right : List Int) (s : Int × Nat) (i : Nat) : Int × Nat :=
  let L := nth left i
  let R := nth right i
  let inner := (intRange (L + 1) R).foldl (totalSumStep power L R i) (0, s.2)
  let contribution := mod (wrap64 (nth power i * inner.1))
  (mod (wrap64 (s.1 + contribution)), inner.2)

/-- The run of the contribution loops: the final `result` and the total number
of executions of the `j`-loop body. -/
def findTotalPowerCounted (power : List Int) : Int × Nat :=
  (List.range power.length).foldl
    (resultStep power (prevSmaller power) (nextSmaller power)) (0, 0)

/-- The function `findTotalPower` of `solution_O_n.cpp`. -/
def findTotalPower (power : List Int) : Int := wrap32 (findTotalPowerCounted power).1

/-- The total number of executions of the `j`-loop body. -/
def jLoopIterations (power : List Int) : Nat := (findTotalPowerCounted power).2

end SolutionOn

/-! ## The window sizes of `final_solution.cpp` -/

namespace FinalSolution

/-- The variable `left` of line 53: `i - prevSmaller[i]`. -/
def left (prevSmaller : List Int) (i : Nat) : Int := (i : Int) - nth prevSmaller i

/-- The variable `right` of line 54: `nextSmaller[i] - i`. -/
def right (nextSmaller : List Int) (i : Nat) : Int := nth nextSmaller i - (i : Int)

end FinalSolution

/-! ## Machine arithmetic: basic facts -/

theorem wrap64_eq (x : Int) (h1 : -2 ^ 63 ≤ x) (h2 : x < 2 ^ 63) : wrap64 x = x := by
  unfold wrap64; omega

theorem wrap32_eq (x : Int) (h1 : -2 ^ 31 ≤ x) (h2 : x < 2 ^ 31) : wrap32 x = x := by
  unfold wrap32; omega

theorem tmod_bounds (x m : Int) (hm : 0 < m) :
    -m < x.tmod m ∧ x.tmod m < m ∧ (x.tmod m) % m = x % m := by
  rcases Int.le_total 0 x with h | h
  · rw [Int.tmod_eq_emod h hm.le]
    have := Int.emod_nonneg x hm.ne'
    have := Int.emod_lt_of_pos x hm
    exact ⟨by omega, by omega, Int.emod_emod_of_dvd _ (dvd_refl _)⟩
  · have h1 : x.tmod m = -((-x).tmod m) := by
      rw [Int.tmod_def, Int.tmod_def, Int.neg_tdiv]; ring
    rw [h1, Int.tmod_eq_emod (by omega) hm.le]
    have := Int.emod_nonneg (-x) hm.ne'
    have := Int.emod_lt_of_pos (-x) hm
    refine ⟨by omega, by omega, ?_⟩
    have h2 : -(-x % m) = x + m * (-x / m) := by
      have := Int.emod_add_ediv (-x) m
      omega
    rw [h2, Int.add_mul_emod_self_left]

theorem FinalSolution.mod_eq_emod (x : Int) : FinalSolution.mod x = x % MOD := by
  unfold FinalSolution.mod
  obtain ⟨h1, h2, h3⟩ := tmod_bounds x MOD (by decide)
  rw [Int.tmod_eq_emod (by omega) (by decide), Int.add_emod_self, h3]

theorem FinalSolution.mod_nonneg (x : Int) : 0 ≤ FinalSolution.mod x := by
  rw [FinalSolution.mod_eq_emod]; exact Int.emod_nonneg x (by decide)

theorem FinalSolution.mod_lt (x : Int) : FinalSolution.mod x < MOD := by
  rw [FinalSolution.mod_eq_emod]; exact Int.emod_lt_of_pos x (by decide)

/-! ## Correctness of a boundary pass

Both passes are instances of `passStep`; they differ in the processing order
`lt` ("is processed before"), the popping test `c` and the sentinel. -/

theorem popWhile_spec (c : Int → Int → Bool) (power : List Int) (x : Int) (st : List Nat) :
    ∃ popped, st = popped ++ popWhile c power x st ∧
      (∀ t ∈ popped, c (nth power t) x = true) ∧
      (∀ t rest, popWhile c power x st = t :: rest → c (nth power t) x = false) := by
  induction st with
  | nil => exact ⟨[], by simp [popWhile]⟩
  | cons a st ih =>
    obtain ⟨popped, h1, h2, h3⟩ := ih
    by_cases hc : c (nth power a) x = true
    · refine ⟨a :: popped, ?_, ?_, ?_⟩
      · simp only [popWhile, hc, if_true, List.cons_append]
        exact congrArg _ h1
      · intro t ht
        rcases List.mem_cons.1 ht with rfl | ht
        · exact hc
        · exact h2 t ht
      · intro t rest ht
        simp only [popWhile, hc, if_true] at ht
        exact h3 t rest ht
    · refine ⟨[], ?_, ?_, ?_⟩
      · simp [popWhile, hc]
      · simp
      · intro t rest ht
        simp only [popWhile, hc] at ht
        simp at ht
        obtain ⟨rfl, -⟩ := ht
        simpa using hc

theorem nth_set_self (arr : List Int) (i : Nat) (v : Int) (h : i < arr.length) :
    nth (arr.set i v) i = v := by
  simp [nth, List.getD_eq_getElem?_getD, List.getElem?_set, h]

theorem nth_set_ne (arr : List Int) (i k : Nat) (v : Int) (h : i ≠ k) :
    nth (arr.set i v) k = nth arr k := by
  simp [nth, List.getD_eq_getElem?_getD, List.getElem?_set, h]

theorem passStep_inv {lt : Nat → Nat → Prop} {c : Int → Int → Bool} {dflt : Int}
    {power : List Int} {all done : List Nat} {s : List Nat × List Int} {i : Nat}
    (hirr : ∀ a, ¬ lt a a) (htr : ∀ a b d, lt a b → lt b d → lt a d)
    (hc : ∀ x y z, c x y = true → c y z = true → c x z = true)
    (hsub : ∀ j ∈ done, j ∈ all) (hdone : ∀ j ∈ all, lt j i → j ∈ done)
    (hbefore : ∀ j ∈ done, lt j i) (hi : i < power.length)
    (h : PassInv lt c dflt power all done s) :
    PassInv lt c dflt power all (done ++ [i]) (passStep c dflt power s i) := by
  obtain ⟨popped, hst, hpop, htop⟩ := popWhile_spec c power (nth power i) s.1
  have hsorted := h.sorted
  rw [hst, List.pairwise_append] at hsorted
  obtain ⟨-, hsorted', hcross⟩ := hsorted
  have hmem' : ∀ t ∈ popWhile c power (nth power i) s.1, t ∈ done := fun t ht =>
    h.mem t (by rw [hst]; exact List.mem_append_right _ ht)
  -- every processed index that is no longer on the stack is popped by `i`
  -- or covered by a surviving entry
  have key : ∀ j ∈ done, j ∉ popWhile c power (nth power i) s.1 →
      c (nth power j) (nth power i) = true ∨
      ∃ t ∈ popWhile c power (nth power i) s.1, lt j t ∧ c (nth power j) (nth power t) = true := by
    intro j hj hjn
    by_cases hjs : j ∈ s.1
    · rw [hst, List.mem_append] at hjs
      rcases hjs with hjs | hjs
      · exact Or.inl (hpop j hjs)
      · exact absurd hjs hjn
    · obtain ⟨t, ht, hjt, hcjt⟩ := h.covered j hj hjs
      rw [hst, List.mem_append] at ht
      rcases ht with ht | ht
      · exact Or.inl (hc _ _ _ hcjt (hpop t ht))
      · exact Or.inr ⟨t, ht, hjt, hcjt⟩
  refine ⟨?_, ?_, ?_, ?_, ?_⟩
  · simp [passStep, h.len]
  · intro t ht
    simp only [passStep, List.mem_cons] at ht
    rcases ht with rfl | ht
    · simp
    · exact List.mem_append_left _ (hmem' t ht)
  · simp only [passStep, List.pairwise_cons]
    exact ⟨fun t ht => hbefore t (hmem' t ht), hsorted'⟩
  · intro j hj hjn
    simp only [passStep, List.mem_cons, not_or] at hjn
    rw [List.mem_append, List.mem_singleton] at hj
    have hjd : j ∈ done := hj.resolve_right hjn.1
    rcases key j hjd hjn.2 with hk | ⟨t, ht, hjt, hcjt⟩
    · exact ⟨i, by simp [passStep], hbefore j hjd, hk⟩
    · exact ⟨t, by simp [passStep, ht], hjt, hcjt⟩
  · intro k hk
    rw [List.mem_append, List.mem_singleton] at hk
    rcases hk with hk | rfl
    · have hne : i ≠ k := fun e => hirr k (e ▸ hbefore k hk)
      simp only [passStep]
      rw [nth_set_ne _ _ _ _ hne]
      exact h.recorded k hk
    · simp only [passStep]
      rw [nth_set_self _ _ _ (by rw [h.len]; exact hi)]
      cases hpw : popWhile c power (nth power k) s.1 with
      | nil =>
        left
        refine ⟨rfl, fun j hj hjk => ?_⟩
        rcases key j (hdone j hj hjk) (by rw [hpw]; simp) with hk | ⟨t, ht, -, -⟩
        · exact hk
        · rw [hpw] at ht; simp at ht
      | cons t rest =>
        right
        have htd : t ∈ done := hmem' t (by rw [hpw]; simp)
        refine ⟨t, rfl, hsub t htd, hbefore t htd, htop t rest hpw, fun j hj htj hjk => ?_⟩
        have hjd := hdone j hj hjk
        rw [hpw, List.pairwise_cons] at hsorted'
        have hnot : j ∉ t :: rest := by
          intro hjm
          rcases List.mem_cons.1 hjm with rfl | hjm
          · exact hirr _ htj
          · exact hirr _ (htr _ _ _ htj (hsorted'.1 j hjm))
        rcases key j hjd (by rw [hpw]; exact hnot) with hk | ⟨u, hu, hju, -⟩
        · exact hk
        · exfalso
          rw [hpw] at hu
          rcases List.mem_cons.1 hu with rfl | hu
          · exact hirr _ (htr _ _ _ htj hju)
          · exact hirr _ (htr _ _ _ (htr _ _ _ htj hju) (hsorted'.1 u hu))

theorem foldl_passStep_inv {lt : Nat → Nat → Prop} {c : Int → Int → Bool} {dflt : Int}
    {power : List Int} {all : List Nat}
    (hirr : ∀ a, ¬ lt a a) (htr : ∀ a b d, lt a b → lt b d → lt a d)
    (hc : ∀ x y z, c x y = true → c y z = true → c x z = true)
    (hall : all.Pairwise lt) (hlen : ∀ i ∈ all, i < power.length) :
    ∀ (is done : List Nat) (s : List Nat × List Int), done ++ is = all →
      PassInv lt c dflt power all done s →
      PassInv lt c dflt power all all (is.foldl (passStep c dflt power) s) := by
  intro is
  induction is with
  | nil =>
    intro done s hd h
    simp only [List.append_nil] at hd
    subst hd
    simpa using h
  | cons i is ih =>
    intro done s hd h
    rw [List.foldl_cons]
    have hp := hall
    rw [← hd, List.pairwise_append, List.pairwise_cons] at hp
    obtain ⟨-, ⟨hi_rest, -⟩, hcross⟩ := hp
    apply ih (done ++ [i]) _ (by rw [← hd]; simp)
    apply passStep_inv hirr htr hc
    · intro j hj; rw [← hd]; exact List.mem_append_left _ hj
    · intro j hj hji
      rw [← hd, List.mem_append, List.mem_cons] at hj
      rcases hj with hj | rfl | hj
      · exact hj
      · exact absurd hji (hirr _)
      · exact absurd (htr _ _ _ hji (hi_rest j hj)) (hirr _)
    · intro j hj; exact hcross j hj i (List.mem_cons_self _ _)
    · exact hlen i (by rw [← hd]; simp)
    · exact h

theorem pass_boundary {lt : Nat → Nat → Prop} {c : Int → Int → Bool} {dflt : Int}
    {power : List Int} {all : List Nat}
    (hirr : ∀ a, ¬ lt a a) (htr : ∀ a b d, lt a b → lt b d → lt a d)
    (hc : ∀ x y z, c x y = true → c y z = true → c x z = true)
    (hall : all.Pairwise lt) (hlen : ∀ i ∈ all, i < power.length) :
    PassInv lt c dflt power all all
      (all.foldl (passStep c dflt power) ([], List.replicate power.length 0)) := by
  apply foldl_passStep_inv hirr htr hc hall hlen all [] _ (by simp)
  exact ⟨by simp, by simp, by simp, by simp, by simp⟩

/-- The value the first pass stores in `prevSmaller[i]`. -/
theorem prevSmaller_boundary (power : List Int) (i : Nat) (hi : i < power.length) :
    (nth (prevSmaller power) i = -1 ∧ ∀ j, j < i → nth power i ≤ nth power j) ∨
    (∃ t : Nat, nth (prevSmaller power) i = (t : Int) ∧ t < i ∧ nth power t < nth power i ∧
      ∀ j, t < j → j < i → nth power i ≤ nth power j) := by
  have h := @pass_boundary (fun a b => a < b) (fun a b => decide (a ≥ b))
    (-1) power (List.range power.length)
    (fun a => lt_irrefl a) (fun a b d => lt_trans)
    (by intro x y z h1 h2; simp only [decide_eq_true_eq] at *; omega)
    (List.pairwise_lt_range _) (fun i hi => List.mem_range.1 hi)
  rcases h.recorded i (List.mem_range.2 hi) with ⟨hv, hall⟩ | ⟨t, hv, -, hti, hct, hall⟩
  · left
    refine ⟨hv, fun j hj => ?_⟩
    have := hall j (List.mem_range.2 (lt_trans hj hi)) hj
    simpa using this
  · right
    refine ⟨t, hv, hti, ?_, fun j htj hji => ?_⟩
    · simpa using hct
    · have := hall j (List.mem_range.2 (lt_trans hji hi)) htj hji
      simpa using this

/-- The value the second pass stores in `nextSmaller[i]`. -/
theorem nextSmaller_boundary (power : List Int) (i : Nat) (hi : i < power.length) :
    (nth (nextSmaller power) i = (power.length : Int) ∧
      ∀ j, i < j → j < power.length → nth power i < nth power j) ∨
    (∃ t : Nat, nth (nextSmaller power) i = (t : Int) ∧ i < t ∧ t < power.length ∧
      nth power t ≤ nth power i ∧ ∀ j, i < j → j < t → nth power i < nth power j) := by
  have h := @pass_boundary (fun a b => b < a) (fun a b => decide (a > b))
    (power.length : Int) power (List.range power.length).reverse
    (fun a => lt_irrefl a) (fun a b d h1 h2 => lt_trans h2 h1)
    (by intro x y z h1 h2; simp only [decide_eq_true_eq] at *; omega)
    (by rw [List.pairwise_reverse]; exact List.pairwise_lt_range _)
    (fun i hi => List.mem_range.1 (List.mem_reverse.1 hi))
  have hmem : ∀ j, j < power.length → j ∈ (List.range power.length).reverse :=
    fun j hj => List.mem_reverse.2 (List.mem_range.2 hj)
  rcases h.recorded i (hmem i hi) with ⟨hv, hall⟩ | ⟨t, hv, ht, hti, hct, hall⟩
  · left
    refine ⟨hv, fun j hj hjn => ?_⟩
    have := hall j (hmem j hjn) hj
    simpa using this
  · right
    have htn : t < power.length := List.mem_range.1 (List.mem_reverse.1 ht)
    refine ⟨t, hv, hti, htn, ?_, fun j hij hjt => ?_⟩
    · simpa using hct
    · have := hall j (hmem j (lt_trans hjt htn)) hjt hij
      simpa using this

/-! ## The window of an index -/

theorem window_spec (power : List Int) (i : Nat) (hi : i < power.length) :
    nth (prevSmaller power) i = (winLo power i : Int) - 1 ∧
    nth (nextSmaller power) i = (winHi power i : Int) ∧
    winLo power i ≤ i ∧ i < winHi power i ∧ winHi power i ≤ power.length ∧
    (∀ j, winLo power i ≤ j → j < i → nth power i ≤ nth power j) ∧
    (0 < winLo power i → nth power (winLo power i - 1) < nth power i) ∧
    (∀ j, i < j → j < winHi power i → nth power i < nth power j) ∧
    (winHi power i < power.length → nth power (winHi power i) ≤ nth power i) := by
  have hL : ∃ lo : Nat, nth (prevSmaller power) i = (lo : Int) - 1 ∧ lo ≤ i ∧
      (∀ j, lo ≤ j → j < i → nth power i ≤ nth power j) ∧
      (0 < lo → nth power (lo - 1) < nth power i) := by
    rcases prevSmaller_boundary power i hi with ⟨hv, hall⟩ | ⟨t, hv, hti, hlt, hall⟩
    · exact ⟨0, by simp [hv], Nat.zero_le _, fun j _ hj => hall j hj, fun h => absurd h (lt_irrefl 0)⟩
    · refine ⟨t + 1, by simp [hv], hti, fun j h1 h2 => hall j h1 h2, fun _ => ?_⟩
      simpa using hlt
  have hR : ∃ hi' : Nat, nth (nextSmaller power) i = (hi' : Int) ∧ i < hi' ∧
      hi' ≤ power.length ∧ (∀ j, i < j → j < hi' → nth power i < nth power j) ∧
      (hi' < power.length → nth power hi' ≤ nth power i) := by
    rcases nextSmaller_boundary power i hi with ⟨hv, hall⟩ | ⟨t, hv, hit, htn, hle, hall⟩
    · exact ⟨power.length, hv, hi, le_refl _, fun j h1 h2 => hall j h1 h2,
        fun h => absurd h (lt_irrefl _)⟩
    · exact ⟨t, hv, hit, htn.le, hall, fun _ => hle⟩
  obtain ⟨lo, h1, h2, h3, h4⟩ := hL
  obtain ⟨hi', h5, h6, h7, h8, h9⟩ := hR
  have e1 : winLo power i = lo := by simp [winLo, h1]
  have e2 : winHi power i = hi' := by simp [winHi, h5]
  rw [e1, e2]
  exact ⟨h1, h5, h2, h6, h7, h3, h4, h8, h9⟩

theorem inWindow_iff (power : List Int) (i l r : Nat) (hi : i < power.length) :
    InWindow power i l r ↔ winLo power i ≤ l ∧ l ≤ i ∧ i ≤ r ∧ r < winHi power i := by
  obtain ⟨h1, h2, -⟩ := window_spec power i hi
  unfold InWindow
  rw [h1, h2]
  omega

/-! ## Minimum and sum of a subarray, and the designated minimum -/

theorem minFrom_le (power : List Int) (l d k : Nat) (h1 : l ≤ k) (h2 : k ≤ l + d) :
    minFrom power l d ≤ nth power k := by
  induction d with
  | zero =>
    have : k = l := by omega
    subst this; exact le_refl _
  | succ d ih =>
    simp only [minFrom]
    by_cases hk : k ≤ l + d
    · exact le_trans (min_le_left _ _) (ih hk)
    · have : k = l + d + 1 := by omega
      subst this; exact min_le_right _ _

theorem minFrom_mem (power : List Int) (l d : Nat) :
    ∃ k, l ≤ k ∧ k ≤ l + d ∧ minFrom power l d = nth power k := by
  induction d with
  | zero => exact ⟨l, le_refl _, le_refl _, rfl⟩
  | succ d ih =>
    obtain ⟨k, h1, h2, h3⟩ := ih
    simp only [minFrom]
    rcases min_choice (minFrom power l d) (nth power (l + d + 1)) with h | h
    · exact ⟨k, h1, by omega, by rw [h, h3]⟩
    · exact ⟨l + d + 1, by omega, by omega, h⟩

/-- The function `subMin` is the least value of the subarray. -/
theorem subMin_isLeast (power : List Int) (l r : Nat) (h : l ≤ r) :
    IsLeast {x | ∃ k, l ≤ k ∧ k ≤ r ∧ x = nth power k} (subMin power l r) := by
  constructor
  · obtain ⟨k, h1, h2, h3⟩ := minFrom_mem power l (r - l)
    exact ⟨k, h1, by omega, h3⟩
  · rintro x ⟨k, h1, h2, rfl⟩
    exact minFrom_le power l (r - l) k h1 (by omega)

theorem subMin_le (power : List Int) (l r k : Nat) (h1 : l ≤ k) (h2 : k ≤ r) :
    subMin power l r ≤ nth power k :=
  minFrom_le power l (r - l) k h1 (by omega)

theorem subMin_mem (power : List Int) (l r : Nat) (h : l ≤ r) :
    ∃ k, l ≤ k ∧ k ≤ r ∧ subMin power l r = nth power k := by
  obtain ⟨k, h1, h2, h3⟩ := minFrom_mem power l (r - l)
  exact ⟨k, h1, by omega, h3⟩

/-- The designated minimum in terms of comparisons only. -/
theorem isDesignatedMin_iff (power : List Int) (l r i : Nat) :
    IsDesignatedMin power l r i ↔ l ≤ i ∧ i ≤ r ∧
      (∀ k, l ≤ k → k ≤ r → nth power i ≤ nth power k) ∧
      (∀ k, i < k → k ≤ r → nth power i < nth power k) := by
  constructor
  · rintro ⟨h1, h2, h3, h4⟩
    refine ⟨h1, h2, fun k hk1 hk2 => h3 ▸ subMin_le power l r k hk1 hk2, fun k hk1 hk2 => ?_⟩
    have hle := subMin_le power l r k (by omega) hk2
    have hne := h4 k hk1 hk2
    rw [h3]
    exact lt_of_le_of_ne hle (Ne.symm hne)
  · rintro ⟨h1, h2, h3, h4⟩
    obtain ⟨k, hk1, hk2, hk3⟩ := subMin_mem power l r (le_trans h1 h2)
    have heq : nth power i = subMin power l r :=
      le_antisymm (hk3 ▸ h3 k hk1 hk2) (subMin_le power l r i h1 h2)
    refine ⟨h1, h2, heq, fun k hk1 hk2 hk => ?_⟩
    have := h4 k hk1 hk2
    rw [hk, heq] at this
    exact lt_irrefl _ this

/-- Inside the array, the window of `i` is exactly the set of subarrays whose
designated minimum is `i`. -/
theorem inWindow_iff_designated (power : List Int) (i l r : Nat) (hr : r < power.length) :
    InWindow power i l r ↔ IsDesignatedMin power l r i := by
  rw [isDesignatedMin_iff]
  constructor
  · intro hw
    have hi : i < power.length := lt_of_le_of_lt hw.2.2.1 hr
    rw [inWindow_iff power i l r hi] at hw
    obtain ⟨-, -, -, -, -, hl, -, hg, -⟩ := window_spec power i hi
    obtain ⟨w1, w2, w3, w4⟩ := hw
    refine ⟨w2, w3, fun k hk1 hk2 => ?_, fun k hk1 hk2 => hg k hk1 (by omega)⟩
    rcases lt_trichotomy k i with h | h | h
    · exact hl k (by omega) h
    · subst h; exact le_refl _
    · exact (hg k h (by omega)).le
  · rintro ⟨h1, h2, h3, h4⟩
    have hi : i < power.length := lt_of_le_of_lt h2 hr
    rw [inWindow_iff power i l r hi]
    obtain ⟨-, -, a1, a2, a3, -, hlo, -, hhi⟩ := window_spec power i hi
    refine ⟨?_, h1, h2, ?_⟩
    · by_contra hcon
      have hpos : 0 < winLo power i := by omega
      have := h3 (winLo power i - 1) (by omega) (by omega)
      exact absurd (hlo hpos) (not_lt.2 this)
    · by_contra hcon
      have hlt : winHi power i < power.length := by omega
      have := h4 (winHi power i) a2 (by omega)
      exact absurd (hhi hlt) (not_le.2 this)

theorem exists_designated (power : List Int) (l d : Nat) :
    ∃ i, IsDesignatedMin power l (l + d) i := by
  induction d with
  | zero =>
    refine ⟨l, (isDesignatedMin_iff _ _ _ _).2 ⟨le_refl _, le_refl _, fun k h1 h2 => ?_, fun k h1 h2 => ?_⟩⟩
    · have : k = l := by omega
      subst this; exact le_refl _
    · omega
  | succ d ih =>
    obtain ⟨i, hi⟩ := ih
    rw [isDesignatedMin_iff] at hi
    obtain ⟨h1, h2, h3, h4⟩ := hi
    by_cases hc : nth power (l + (d + 1)) ≤ nth power i
    · refine ⟨l + (d + 1), (isDesignatedMin_iff _ _ _ _).2 ⟨by omega, le_refl _, fun k hk1 hk2 => ?_, fun k hk1 hk2 => ?_⟩⟩
      · by_cases hk : k ≤ l + d
        · exact le_trans hc (h3 k hk1 hk)
        · have : k = l + (d + 1) := by omega
          subst this; exact le_refl _
      · omega
    · refine ⟨i, (isDesignatedMin_iff _ _ _ _).2 ⟨h1, by omega, fun k hk1 hk2 => ?_, fun k hk1 hk2 => ?_⟩⟩
      · by_cases hk : k ≤ l + d
        · exact h3 k hk1 hk
        · have : k = l + (d + 1) := by omega
          subst this; exact (not_le.1 hc).le
      · by_cases hk : k ≤ l + d
        · exact h4 k hk1 hk
        · have : k = l + (d + 1) := by omega
          subst this; exact not_le.1 hc

theorem designated_unique (power : List Int) (l r i i' : Nat)
    (h : IsDesignatedMin power l r i) (h' : IsDesignatedMin power l r i') : i = i' := by
  rw [isDesignatedMin_iff] at h h'
  obtain ⟨a1, a2, a3, a4⟩ := h
  obtain ⟨b1, b2, b3, b4⟩ := h'
  rcases lt_trichotomy i i' with hlt | heq | hgt
  · exact absurd (a4 i' hlt b2) (not_lt.2 (b3 i a1 a2))
  · exact heq
  · exact absurd (b4 i hgt a2) (not_lt.2 (a3 i' b1 b2))

theorem existsUnique_designated (power : List Int) (l r : Nat) (h : l ≤ r) :
    ∃! i, IsDesignatedMin power l r i := by
  obtain ⟨i, hi⟩ := exists_designated power l (r - l)
  have e : l + (r - l) = r := by omega
  rw [e] at hi
  exact ⟨i, hi, fun i' hi' => designated_unique power l r i' i hi' hi⟩

/-! ## The counting identity -/

/-- Counting identity behind the contribution technique: every `f j` with `j`
in the window `(L, R)` occurs in `leftCount * rightCount` of the subarrays
`[l, r]` with `l` in `(L, i]` and `r` in `[i, R)`. -/
theorem window_sum_identity (f : Int → Int) (L R i : Int) (h1 : L < i) (h2 : i < R) :
    ∑ l ∈ Finset.Ioc L i, ∑ r ∈ Finset.Ico i R, ∑ k ∈ Finset.Icc l r, f k =
      ∑ j ∈ Finset.Ioo L R, FinalSolution.leftCount L i j * FinalSolution.rightCount R i j * f j := by
  have hstep : ∀ l ∈ Finset.Ioc L i, ∀ r ∈ Finset.Ico i R,
      ∑ k ∈ Finset.Icc l r, f k = ∑ j ∈ Finset.Ioo L R, if l ≤ j ∧ j ≤ r then f j else 0 := by
    intro l hl r hr
    rw [← Finset.sum_filter]
    apply Finset.sum_congr _ (fun _ _ => rfl)
    ext j
    simp only [Finset.mem_Ioc, Finset.mem_Ico] at hl hr
    simp only [Finset.mem_Icc, Finset.mem_filter, Finset.mem_Ioo]
    omega
  have hL : ∑ l ∈ Finset.Ioc L i, ∑ r ∈ Finset.Ico i R, ∑ k ∈ Finset.Icc l r, f k =
      ∑ l ∈ Finset.Ioc L i, ∑ r ∈ Finset.Ico i R, ∑ j ∈ Finset.Ioo L R, if l ≤ j ∧ j ≤ r then f j else 0 :=
    Finset.sum_congr rfl (fun l hl => Finset.sum_congr rfl (fun r hr => hstep l hl r hr))
  rw [hL]
  have hswap : ∑ l ∈ Finset.Ioc L i, ∑ r ∈ Finset.Ico i R, ∑ j ∈ Finset.Ioo L R, (if l ≤ j ∧ j ≤ r then f j else 0) =
      ∑ j ∈ Finset.Ioo L R, ∑ l ∈ Finset.Ioc L i, ∑ r ∈ Finset.Ico i R, if l ≤ j ∧ j ≤ r then f j else 0 := by
    rw [Finset.sum_congr rfl (fun l _ => Finset.sum_comm)]
    exact Finset.sum_comm
  rw [hswap]
  apply Finset.sum_congr rfl
  intro j hj
  simp only [Finset.mem_Ioo] at hj
  have hsplit : ∀ l : Int, (∑ r ∈ Finset.Ico i R, if l ≤ j ∧ j ≤ r then f j else 0) =
      if l ≤ j then (∑ r ∈ Finset.Ico i R, if j ≤ r then f j else 0) else 0 := by
    intro l
    by_cases a : l ≤ j <;> simp [a]
  simp only [hsplit]
  rw [← Finset.sum_filter]
  have hinner : (∑ r ∈ Finset.Ico i R, if j ≤ r then f j else 0) =
      (((Finset.Ico i R).filter (fun r => j ≤ r)).card : Int) * f j := by
    rw [← Finset.sum_filter, Finset.sum_const, nsmul_eq_mul]
  rw [hinner]
  rw [Finset.sum_const, nsmul_eq_mul]
  have hcl : (((Finset.Ioc L i).filter (fun l => l ≤ j)).card : Int) = FinalSolution.leftCount L i j := by
    unfold FinalSolution.leftCount
    split_ifs with hji
    · have : (Finset.Ioc L i).filter (fun l => l ≤ j) = Finset.Ioc L j := by
        ext l; simp only [Finset.mem_filter, Finset.mem_Ioc]; omega
      rw [this, Int.card_Ioc, Int.toNat_of_nonneg (by omega)]
    · have : (Finset.Ioc L i).filter (fun l => l ≤ j) = Finset.Ioc L i := by
        ext l; simp only [Finset.mem_filter, Finset.mem_Ioc]; omega
      rw [this, Int.card_Ioc, Int.toNat_of_nonneg (by omega)]
  have hcr : (((Finset.Ico i R).filter (fun r => j ≤ r)).card : Int) = FinalSolution.rightCount R i j := by
    unfold FinalSolution.rightCount
    split_ifs with hji
    · have : (Finset.Ico i R).filter (fun r => j ≤ r) = Finset.Ico i R := by
        ext r; simp only [Finset.mem_filter, Finset.mem_Ico]; omega
      rw [this, Int.card_Ico, Int.toNat_of_nonneg (by omega)]
    · have : (Finset.Ico i R).filter (fun r => j ≤ r) = Finset.Ico j R := by
        ext r; simp only [Finset.mem_filter, Finset.mem_Ico]; omega
      rw [this, Int.card_Ico, Int.toNat_of_nonneg (by omega)]
  rw [hcl, hcr]
  ring

/-! ## Loops as sums -/

theorem sum_map_range (g : Nat → Int) (m : Nat) :
    ((List.range m).map g).sum = ∑ k ∈ Finset.range m, g k := by
  induction m with
  | zero => simp
  | succ m ih => rw [List.range_succ, List.map_append, List.sum_append, ih, Finset.sum_range_succ]; simp

/-- The values of a `for (int j = a; j < b; j++)` loop are the interval `[a, b)`. -/
theorem sum_intRange (g : Int → Int) (a b : Int) :
    ((intRange a b).map g).sum = ∑ j ∈ Finset.Ico a b, g j := by
  unfold intRange
  rw [List.map_map, sum_map_range]
  show _ = ∑ j ∈ (Finset.range (b - a).toNat).map
    (Nat.castEmbedding.trans (addLeftEmbedding a)), g j
  rw [Finset.sum_map]
  rfl

theorem mem_intRange (a b j : Int) : j ∈ intRange a b ↔ a ≤ j ∧ j < b := by
  unfold intRange
  simp only [List.mem_map, List.mem_range]
  constructor
  · rintro ⟨k, hk, rfl⟩; omega
  · intro h; exact ⟨(j - a).toNat, by omega, by omega⟩

theorem Ico_succ_eq_Ioo (L R : Int) : Finset.Ico (L + 1) R = Finset.Ioo L R := by
  ext j; simp only [Finset.mem_Ico, Finset.mem_Ioo]; omega

theorem Ico_succ_eq_Ioc (L i : Int) : Finset.Ico (L + 1) (i + 1) = Finset.Ioc L i := by
  ext j; simp only [Finset.mem_Ico, Finset.mem_Ioc]; omega

/-- A loop `acc = mod(acc + g(x))` computes the sum of the `g(x)` modulo `MOD`. -/
theorem foldl_mod_add {α : Type} (g : α → Int) (l : List α) (a : Int)
    (ha : 0 ≤ a ∧ a < MOD) (hg : ∀ x ∈ l, 0 ≤ g x ∧ g x < MOD) :
    l.foldl (fun acc x => FinalSolution.mod (wrap64 (acc + g x))) a =
      (a + (l.map g).sum) % MOD := by
  induction l generalizing a with
  | nil =>
    simp only [List.foldl_nil, List.map_nil, List.sum_nil, add_zero]
    exact (Int.emod_eq_of_lt ha.1 ha.2).symm
  | cons x l ih =>
    have hx := hg x (List.mem_cons_self _ _)
    have hM : MOD = 1000000007 := rfl
    rw [List.foldl_cons, wrap64_eq _ (by omega) (by omega), FinalSolution.mod_eq_emod]
    rw [ih _ ⟨Int.emod_nonneg _ (by decide), Int.emod_lt_of_pos _ (by decide)⟩
      (fun y hy => hg y (List.mem_cons_of_mem _ hy))]
    simp only [List.map_cons, List.sum_cons]
    rw [Int.emod_add_emod, add_assoc]

theorem nth_mem (power : List Int) (k : Nat) (h : k < power.length) : nth power k ∈ power := by
  unfold nth
  rw [List.getD_eq_getElem _ _ h]
  exact List.getElem_mem h

theorem emod_mul_emod_left (x y m : Int) : (x % m * y) % m = (x * y) % m := by
  rw [Int.mul_emod, Int.emod_emod, ← Int.mul_emod]

theorem mul_emod_emod_right (x y m : Int) : (x * (y % m)) % m = (x * y) % m := by
  rw [Int.mul_emod, Int.emod_emod, ← Int.mul_emod]

theorem enumeratedSum_eq_collapsedSum (power : List Int) (L R i : Int) (h1 : L < i) (h2 : i < R) :
    enumeratedSum power L R i = collapsedSum power L R i :=
  window_sum_identity (nthI power) L R i h1 h2

/-- The `j` loop computes the collapsed sum modulo `MOD`. -/
theorem FinalSolution.sumOfSums_eq (power : List Int) (L R i : Int)
    (hpow : ∀ x ∈ power, 0 ≤ x ∧ x < 2 ^ 31) (hn : power.length < 2 ^ 31)
    (hL : -1 ≤ L) (hLi : L < i) (hiR : i < R) (hR : R ≤ power.length) :
    FinalSolution.sumOfSums power L R i = collapsedSum power L R i % MOD := by
  have hM : MOD = 1000000007 := rfl
  have hfold := foldl_mod_add
    (fun j => FinalSolution.mod (wrap64 (FinalSolution.mod
      (wrap64 (FinalSolution.leftCount L i j * FinalSolution.rightCount R i j)) * nthI power j)))
    (intRange (L + 1) R) 0 (by decide)
    (fun j _ => ⟨FinalSolution.mod_nonneg _, FinalSolution.mod_lt _⟩)
  have hdef : FinalSolution.sumOfSums power L R i = (intRange (L + 1) R).foldl
      (fun acc j => FinalSolution.mod (wrap64 (acc + FinalSolution.mod (wrap64 (FinalSolution.mod
        (wrap64 (FinalSolution.leftCount L i j * FinalSolution.rightCount R i j)) *
          nthI power j))))) 0 := rfl
  rw [hdef, hfold, zero_add, sum_intRange, Ico_succ_eq_Ioo, collapsedSum,
    Finset.sum_int_mod, Finset.sum_int_mod (Finset.Ioo L R) MOD
      (fun j => FinalSolution.leftCount L i j * FinalSolution.rightCount R i j * nthI power j)]
  congr 1
  apply Finset.sum_congr rfl
  intro j hj
  simp only [Finset.mem_Ioo] at hj
  have hp : 0 ≤ nthI power j ∧ nthI power j < 2 ^ 31 :=
    hpow _ (nth_mem power j.toNat (by omega))
  have hlc : 0 ≤ FinalSolution.leftCount L i j ∧ FinalSolution.leftCount L i j < 2 ^ 31 := by
    unfold FinalSolution.leftCount; split_ifs <;> omega
  have hrc : 0 ≤ FinalSolution.rightCount R i j ∧ FinalSolution.rightCount R i j < 2 ^ 31 := by
    unfold FinalSolution.rightCount; split_ifs <;> omega
  have hprod : 0 ≤ FinalSolution.leftCount L i j * FinalSolution.rightCount R i j ∧
      FinalSolution.leftCount L i j * FinalSolution.rightCount R i j < 2 ^ 62 := by
    constructor
    · exact mul_nonneg hlc.1 hrc.1
    · nlinarith [hlc.1, hlc.2, hrc.1, hrc.2]
  rw [wrap64_eq (FinalSolution.leftCount L i j * FinalSolution.rightCount R i j)
    (by omega) (by omega)]
  have hf := FinalSolution.mod_nonneg
    (FinalSolution.leftCount L i j * FinalSolution.rightCount R i j)
  have hf' := FinalSolution.mod_lt
    (FinalSolution.leftCount L i j * FinalSolution.rightCount R i j)
  have hprod2 : 0 ≤ FinalSolution.mod
        (FinalSolution.leftCount L i j * FinalSolution.rightCount R i j) * nthI power j ∧
      FinalSolution.mod
        (FinalSolution.leftCount L i j * FinalSolution.rightCount R i j) * nthI power j < 2 ^ 62 := by
    constructor
    · exact mul_nonneg hf hp.1
    · nlinarith [hf, hf', hp.1, hp.2]
  rw [wrap64_eq _ (by omega) (by omega), FinalSolution.mod_eq_emod, FinalSolution.mod_eq_emod,
    Int.emod_emod, emod_mul_emod_left]

/-! ## From windows to the brute-force sum -/

theorem sum_Ico_cast (F : Int → Int) (a b : Nat) :
    ∑ x ∈ Finset.Ico (a : Int) (b : Int), F x = ∑ k ∈ Finset.Ico a b, F (k : Int) := by
  apply Finset.sum_nbij' Int.toNat (fun k : Nat => (k : Int))
  · intro x hx; simp only [Finset.mem_Ico] at hx ⊢; omega
  · intro k hk; simp only [Finset.mem_Ico] at hk ⊢; omega
  · intro x hx; simp only [Finset.mem_Ico] at hx; omega
  · intro k _; simp
  · intro x hx; simp only [Finset.mem_Ico] at hx
    congr 1; omega

theorem Icc_eq_Ico_int (l r : Int) : Finset.Icc l r = Finset.Ico l (r + 1) := by
  ext j; simp only [Finset.mem_Icc, Finset.mem_Ico]; omega

theorem Icc_eq_Ico_nat (l r : Nat) : Finset.Icc l r = Finset.Ico l (r + 1) := by
  ext j; simp only [Finset.mem_Icc, Finset.mem_Ico]; omega

theorem sum_Icc_nthI (power : List Int) (l r : Nat) :
    ∑ k ∈ Finset.Icc (l : Int) (r : Int), nthI power k = subSum power l r := by
  rw [Icc_eq_Ico_int, subSum, Icc_eq_Ico_nat]
  have := sum_Ico_cast (nthI power) l (r + 1)
  simp only [Nat.cast_add, Nat.cast_one] at this
  rw [this]
  rfl

/-- The enumerated sum of a window with natural-number bounds. -/
theorem enumeratedSum_nat (power : List Int) (lo hi i : Nat) :
    enumeratedSum power ((lo : Int) - 1) (hi : Int) (i : Int) =
      ∑ l ∈ Finset.Ico lo (i + 1), ∑ r ∈ Finset.Ico i hi, subSum power l r := by
  unfold enumeratedSum
  rw [← Ico_succ_eq_Ioc]
  have e : (lo : Int) - 1 + 1 = (lo : Int) := by ring
  rw [e]
  have := sum_Ico_cast
    (fun l => ∑ r ∈ Finset.Ico (i : Int) (hi : Int), ∑ k ∈ Finset.Icc l r, nthI power k) lo (i + 1)
  simp only [Nat.cast_add, Nat.cast_one] at this
  rw [this]
  apply Finset.sum_congr rfl
  intro l _
  rw [sum_Ico_cast (fun r => ∑ k ∈ Finset.Icc (l : Int) r, nthI power k) i hi]
  apply Finset.sum_congr rfl
  intro r _
  exact sum_Icc_nthI power l r

/-- A window sum as a sum over all pairs, guarded by the window test. -/
theorem window_sum_as_guarded (power : List Int) (i : Nat) (hi : i < power.length)
    (G : Nat → Nat → Int) :
    ∑ l ∈ Finset.Ico (winLo power i) (i + 1), ∑ r ∈ Finset.Ico i (winHi power i), G l r =
      ∑ l ∈ Finset.range power.length, ∑ r ∈ Finset.range power.length,
        if InWindow power i l r then G l r else 0 := by
  obtain ⟨-, -, a1, a2, a3, -⟩ := window_spec power i hi
  have hsplit : ∀ l : Nat, (∑ r ∈ Finset.range power.length,
      if InWindow power i l r then G l r else 0) =
      if winLo power i ≤ l ∧ l ≤ i then
        ∑ r ∈ (Finset.range power.length).filter (fun r => i ≤ r ∧ r < winHi power i), G l r
      else 0 := by
    intro l
    rw [Finset.sum_filter]
    by_cases hl : winLo power i ≤ l ∧ l ≤ i
    · rw [if_pos hl]
      apply Finset.sum_congr rfl
      intro r _
      by_cases hr : i ≤ r ∧ r < winHi power i
      · rw [if_pos hr, if_pos ((inWindow_iff power i l r hi).2 ⟨hl.1, hl.2, hr.1, hr.2⟩)]
      · rw [if_neg hr, if_neg (fun h => hr
          ⟨((inWindow_iff power i l r hi).1 h).2.2.1, ((inWindow_iff power i l r hi).1 h).2.2.2⟩)]
    · rw [if_neg hl]
      apply Finset.sum_eq_zero
      intro r _
      rw [if_neg (fun h => hl
          ⟨((inWindow_iff power i l r hi).1 h).1, ((inWindow_iff power i l r hi).1 h).2.1⟩)]
  simp only [hsplit]
  rw [← Finset.sum_filter]
  have e1 : (Finset.range power.length).filter (fun l => winLo power i ≤ l ∧ l ≤ i) =
      Finset.Ico (winLo power i) (i + 1) := by
    ext l; simp only [Finset.mem_filter, Finset.mem_range, Finset.mem_Ico]; omega
  have e2 : (Finset.range power.length).filter (fun r => i ≤ r ∧ r < winHi power i) =
      Finset.Ico i (winHi power i) := by
    ext r; simp only [Finset.mem_filter, Finset.mem_range, Finset.mem_Ico]; omega
  rw [e1, e2]

/-- The windows partition the subarrays: for each subarray exactly one index
contributes, and it contributes the minimum. -/
theorem sum_over_indices (power : List Int) (l r : Nat) (hr : r < power.length) (s : Int) :
    ∑ i ∈ Finset.range power.length, (if InWindow power i l r then nth power i * s else 0) =
      if l ≤ r then subMin power l r * s else 0 := by
  by_cases hlr : l ≤ r
  · rw [if_pos hlr]
    obtain ⟨i0, h0⟩ := exists_designated power l (r - l)
    have e : l + (r - l) = r := by omega
    rw [e] at h0
    have hi0 : i0 < power.length := lt_of_le_of_lt h0.2.1 hr
    rw [Finset.sum_eq_single i0]
    · rw [if_pos ((inWindow_iff_designated power i0 l r hr).2 h0), h0.2.2.1]
    · intro i _ hne
      rw [if_neg]
      intro hw
      exact hne (designated_unique power l r i i0
        ((inWindow_iff_designated power i l r hr).1 hw) h0)
    · intro hnot
      exact absurd (Finset.mem_range.2 hi0) hnot
  · rw [if_neg hlr]
    apply Finset.sum_eq_zero
    intro i _
    rw [if_neg]
    intro hw
    exact hlr (le_trans hw.2.1 hw.2.2.1)

/-- The contribution technique over exact integers: summing, for every index,
`power[i]` times the enumerated sum of its window gives the brute-force sum. -/
theorem contribution_sum_eq_bruteForceSum (power : List Int) :
    ∑ i ∈ Finset.range power.length,
      nth power i * enumeratedSum power (nth (prevSmaller power) i) (nth (nextSmaller power) i) i =
      bruteForceSum power := by
  have h1 : ∀ i ∈ Finset.range power.length,
      nth power i * enumeratedSum power (nth (prevSmaller power) i) (nth (nextSmaller power) i) i =
      ∑ l ∈ Finset.range power.length, ∑ r ∈ Finset.range power.length,
        if InWindow power i l r then nth power i * subSum power l r else 0 := by
    intro i hi
    have hi' := Finset.mem_range.1 hi
    obtain ⟨e1, e2, -⟩ := window_spec power i hi'
    rw [e1, e2, enumeratedSum_nat, Finset.mul_sum]
    rw [← window_sum_as_guarded power i hi' (fun l r => nth power i * subSum power l r)]
    apply Finset.sum_congr rfl
    intro l _
    rw [Finset.mul_sum]
  rw [Finset.sum_congr rfl h1, Finset.sum_comm]
  unfold bruteForceSum
  apply Finset.sum_congr rfl
  intro l hl
  rw [Finset.sum_comm]
  have h2 : ∀ r ∈ Finset.range power.length,
      ∑ i ∈ Finset.range power.length,
        (if InWindow power i l r then nth power i * subSum power l r else 0) =
      if l ≤ r then subMin power l r * subSum power l r else 0 := fun r hr =>
    sum_over_indices power l r (Finset.mem_range.1 hr) _
  rw [Finset.sum_congr rfl h2, ← Finset.sum_filter]
  apply Finset.sum_congr _ (fun _ _ => rfl)
  ext r
  simp only [Finset.mem_filter, Finset.mem_range, Finset.mem_Ico]
  omega

/-- The outer loop of `final_solution.cpp` computes, modulo `MOD`, the sum over
all indices of `power[i]` times the enumerated sum of the window of `i`. -/
theorem FinalSolution.findTotalPower_eq_sum (power : List Int)
    (hpow : ∀ x ∈ power, 0 ≤ x ∧ x < 2 ^ 31) (hn : power.length < 2 ^ 31) :
    FinalSolution.findTotalPower power =
      (∑ i ∈ Finset.range power.length, nth power i *
        enumeratedSum power (nth (prevSmaller power) i) (nth (nextSmaller power) i) i) % MOD := by
  have hM : MOD = 1000000007 := rfl
  have hfold := foldl_mod_add
    (fun i : Nat => FinalSolution.mod (wrap64 (nth power i *
      FinalSolution.sumOfSums power (nth (prevSmaller power) i) (nth (nextSmaller power) i) i)))
    (List.range power.length) 0 (by decide)
    (fun j _ => ⟨FinalSolution.mod_nonneg _, FinalSolution.mod_lt _⟩)
  have hdef : FinalSolution.findTotalPower power = wrap32 ((List.range power.length).foldl
      (fun acc i => FinalSolution.mod (wrap64 (acc + FinalSolution.mod (wrap64 (nth power i *
        FinalSolution.sumOfSums power (nth (prevSmaller power) i)
          (nth (nextSmaller power) i) i))))) 0) := rfl
  rw [hdef, hfold, zero_add, sum_map_range]
  have hb1 := Int.emod_nonneg (∑ k ∈ Finset.range power.length,
    FinalSolution.mod (wrap64 (nth power k * FinalSolution.sumOfSums power
      (nth (prevSmaller power) k) (nth (nextSmaller power) k) k))) (show MOD ≠ 0 by decide)
  have hb2 := Int.emod_lt_of_pos (∑ k ∈ Finset.range power.length,
    FinalSolution.mod (wrap64 (nth power k * FinalSolution.sumOfSums power
      (nth (prevSmaller power) k) (nth (nextSmaller power) k) k))) (show 0 < MOD by decide)
  rw [wrap32_eq _ (by omega) (by omega), Finset.sum_int_mod,
    Finset.sum_int_mod (Finset.range power.length) MOD (fun i => nth power i *
      enumeratedSum power (nth (prevSmaller power) i) (nth (nextSmaller power) i) i)]
  congr 1
  apply Finset.sum_congr rfl
  intro i hi
  have hi' := Finset.mem_range.1 hi
  obtain ⟨e1, e2, a1, a2, a3, -⟩ := window_spec power i hi'
  have hS := FinalSolution.sumOfSums_eq power (nth (prevSmaller power) i)
    (nth (nextSmaller power) i) i hpow hn (by omega) (by omega) (by omega) (by omega)
  have hE := enumeratedSum_eq_collapsedSum power (nth (prevSmaller power) i)
    (nth (nextSmaller power) i) i (by omega) (by omega)
  rw [hS, hE]
  have hp : 0 ≤ nth power i ∧ nth power i < 2 ^ 31 := hpow _ (nth_mem power i hi')
  have hc1 := Int.emod_nonneg (collapsedSum power (nth (prevSmaller power) i)
    (nth (nextSmaller power) i) i) (show MOD ≠ 0 by decide)
  have hc2 := Int.emod_lt_of_pos (collapsedSum power (nth (prevSmaller power) i)
    (nth (nextSmaller power) i) i) (show 0 < MOD by decide)
  have hprod : 0 ≤ nth power i * (collapsedSum power (nth (prevSmaller power) i)
        (nth (nextSmaller power) i) i % MOD) ∧
      nth power i * (collapsedSum power (nth (prevSmaller power) i)
        (nth (nextSmaller power) i) i % MOD) < 2 ^ 62 := by
    constructor
    · exact mul_nonneg hp.1 hc1
    · nlinarith [hp.1, hp.2, hc1, hc2]
  rw [wrap64_eq _ (by omega) (by omega), FinalSolution.mod_eq_emod, Int.emod_emod,
    mul_emod_emod_right]

/-- On non-negative `int` inputs `final_solution.cpp` computes the specified
result. -/
theorem FinalSolution.findTotalPower_eq_spec (power : List Int)
    (hpow : ∀ x ∈ power, 0 ≤ x ∧ x < 2 ^ 31) (hn : power.length < 2 ^ 31) :
    FinalSolution.findTotalPower power = specTotalPower power := by
  rw [FinalSolution.findTotalPower_eq_sum power hpow hn, contribution_sum_eq_bruteForceSum]
  rfl

/-! ## Prefix sums and the enumerating double loop -/

/-- A prefix-sum loop `ps[i+1] = F(ps[i] + power[i])` fills `ps[0..n]` with any
sequence `P` that starts at `0` and follows the same recurrence. -/
theorem prefix_fold (power : List Int) (F : Int → Int) (P : Nat → Int) (h0 : P 0 = 0)
    (hstep : ∀ i, i < power.length → F (P i + nth power i) = P (i + 1)) :
    ∀ m, m ≤ power.length →
      ((List.range m).foldl (fun ps i => ps.set (i + 1) (F (nth ps i + nth power i)))
        (List.replicate (power.length + 1) 0)).length = power.length + 1 ∧
      ∀ k, k ≤ m → nth ((List.range m).foldl
        (fun ps i => ps.set (i + 1) (F (nth ps i + nth power i)))
        (List.replicate (power.length + 1) 0)) k = P k := by
  intro m
  induction m with
  | zero =>
    intro _
    refine ⟨by simp, fun k hk => ?_⟩
    have : k = 0 := by omega
    subst this
    simp [nth, h0]
  | succ m ih =>
    intro hm
    obtain ⟨hlen, hval⟩ := ih (by omega)
    rw [List.range_succ, List.foldl_append]
    simp only [List.foldl_cons, List.foldl_nil]
    refine ⟨by simp [hlen], fun k hk => ?_⟩
    by_cases hkm : k = m + 1
    · subst hkm
      rw [nth_set_self _ _ _ (by rw [hlen]; omega), hval m (le_refl _), hstep m (by omega)]
    · rw [nth_set_ne _ _ _ _ (fun h => hkm h.symm)]
      exact hval k (by omega)

theorem exactPrefixSum_nonneg (power : List Int) (hpow : ∀ x ∈ power, 0 ≤ x ∧ x < 2 ^ 31)
    (k : Nat) (hk : k ≤ power.length) : 0 ≤ exactPrefixSum power k := by
  apply Finset.sum_nonneg
  intro j hj
  exact (hpow _ (nth_mem power j (by have := Finset.mem_range.1 hj; omega))).1

theorem exactPrefixSum_le (power : List Int) (hpow : ∀ x ∈ power, 0 ≤ x ∧ x < 2 ^ 31)
    (k : Nat) (hk : k ≤ power.length) : exactPrefixSum power k ≤ (k : Int) * 2 ^ 31 := by
  induction k with
  | zero => simp [exactPrefixSum]
  | succ k ih =>
    have := ih (by omega)
    have hp := (hpow _ (nth_mem power k (by omega))).2
    unfold exactPrefixSum at *
    rw [Finset.sum_range_succ]
    push_cast
    linarith

theorem exactPrefixSum_sub (power : List Int) (a b : Nat) (h : a ≤ b + 1) :
    exactPrefixSum power (b + 1) - exactPrefixSum power a = subSum power a b := by
  unfold exactPrefixSum subSum
  rw [Icc_eq_Ico_nat, Finset.sum_Ico_eq_sub _ h]

/-- The unreduced prefix sums of `findTotalPower_optimized.cpp` are exact. -/
theorem Optimized.prefixSum_exact (power : List Int) (hpow : ∀ x ∈ power, 0 ≤ x ∧ x < 2 ^ 31)
    (hn : power.length < 2 ^ 31) (k : Nat) (hk : k ≤ power.length) :
    nth (Optimized.prefixSum power) k = exactPrefixSum power k := by
  refine (prefix_fold power wrap64 (exactPrefixSum power) (by simp [exactPrefixSum]) ?_
    power.length (le_refl _)).2 k hk
  intro i hi
  have h1 := exactPrefixSum_nonneg power hpow i hi.le
  have h2 := exactPrefixSum_le power hpow i hi.le
  have hp := hpow _ (nth_mem power i hi)
  have hi' : (i : Int) < 2 ^ 31 := by exact_mod_cast lt_trans hi hn
  have h3 : (i : Int) * 2 ^ 31 ≤ 2 ^ 31 * 2 ^ 31 := by nlinarith
  rw [wrap64_eq _ (by omega) (by omega)]
  simp [exactPrefixSum, Finset.sum_range_succ]

/-- The reduced prefix sums of `solution_fast.cpp`. -/
theorem SolutionFast.prefixSum_reduced (power : List Int) (hpow : ∀ x ∈ power, 0 ≤ x ∧ x < 2 ^ 31)
    (k : Nat) (hk : k ≤ power.length) :
    nth (SolutionFast.prefixSum power) k = exactPrefixSum power k % MOD := by
  have hM : MOD = 1000000007 := rfl
  refine (prefix_fold power (fun x => (wrap64 x).tmod MOD) (fun k => exactPrefixSum power k % MOD)
    (by simp [exactPrefixSum]) ?_ power.length (le_refl _)).2 k hk
  intro i hi
  have h1 := Int.emod_nonneg (exactPrefixSum power i) (show MOD ≠ 0 by decide)
  have h2 := Int.emod_lt_of_pos (exactPrefixSum power i) (show 0 < MOD by decide)
  have hp := hpow _ (nth_mem power i hi)
  show (wrap64 (exactPrefixSum power i % MOD + nth power i)).tmod MOD = _
  rw [wrap64_eq _ (by omega) (by omega), Int.tmod_eq_emod (by omega) (by decide),
    Int.emod_add_emod]
  simp [exactPrefixSum, Finset.sum_range_succ]

/-- A loop whose body maps `acc` to `(acc + g x) % MOD` on every reduced
accumulator computes the sum of the `g x` modulo `MOD`. -/
theorem foldl_add_emod {α : Type} (step : Int → α → Int) (g : α → Int) (l : List α)
    (hstep : ∀ x ∈ l, ∀ acc, 0 ≤ acc → acc < MOD → step acc x = (acc + g x) % MOD)
    (a : Int) (ha : 0 ≤ a ∧ a < MOD) :
    l.foldl step a = (a + (l.map g).sum) % MOD := by
  induction l generalizing a with
  | nil =>
    simp only [List.foldl_nil, List.map_nil, List.sum_nil, add_zero]
    exact (Int.emod_eq_of_lt ha.1 ha.2).symm
  | cons x l ih =>
    rw [List.foldl_cons, hstep x (List.mem_cons_self _ _) a ha.1 ha.2]
    rw [ih (fun y hy => hstep y (List.mem_cons_of_mem _ hy)) _
      ⟨Int.emod_nonneg _ (by decide), Int.emod_lt_of_pos _ (by decide)⟩]
    simp only [List.map_cons, List.sum_cons]
    rw [Int.emod_add_emod, add_assoc]

theorem subSum_bounds (power : List Int) (hpow : ∀ x ∈ power, 0 ≤ x ∧ x < 2 ^ 31)
    (hn : power.length < 2 ^ 31) (a b : Nat) (hab : a ≤ b) (hb : b < power.length) :
    0 ≤ subSum power a b ∧ subSum power a b < 2 ^ 62 := by
  constructor
  · apply Finset.sum_nonneg
    intro j hj
    exact (hpow _ (nth_mem power j (by have := Finset.mem_Icc.1 hj; omega))).1
  · rw [← exactPrefixSum_sub power a b (by omega)]
    have h1 := exactPrefixSum_nonneg power hpow a (by omega)
    have h2 := exactPrefixSum_le power hpow (b + 1) (by omega)
    have hb' : ((b + 1 : Nat) : Int) ≤ 2 ^ 31 := by exact_mod_cast (by omega : b + 1 ≤ 2 ^ 31)
    have h3 : ((b + 1 : Nat) : Int) * 2 ^ 31 ≤ 2 ^ 31 * 2 ^ 31 := by nlinarith
    omega

/-- The `l`, `r` double loop of `findTotalPower_optimized.cpp` computes the
enumerated sum modulo `MOD`. -/
theorem Optimized.contribution_eq (power : List Int)
    (hpow : ∀ x ∈ power, 0 ≤ x ∧ x < 2 ^ 31) (hn : power.length < 2 ^ 31) (L R i : Int)
    (hL : -1 ≤ L) (hiR : i < R) (hR : R ≤ power.length) :
    Optimized.contribution (Optimized.prefixSum power) L R i = enumeratedSum power L R i % MOD := by
  have hM : MOD = 1000000007 := rfl
  have hinner : ∀ l ∈ intRange (L + 1) (i + 1), ∀ c, 0 ≤ c → c < MOD →
      (intRange i R).foldl (Optimized.contributionStep (Optimized.prefixSum power) l) c =
        (c + ∑ r ∈ Finset.Ico i R, ∑ k ∈ Finset.Icc l r, nthI power k) % MOD := by
    intro l hl c hc0 hc1
    rw [mem_intRange] at hl
    rw [foldl_add_emod _ (fun r => ∑ k ∈ Finset.Icc l r, nthI power k) _ _ c ⟨hc0, hc1⟩,
      sum_intRange]
    intro r hr acc ha0 ha1
    rw [mem_intRange] at hr
    have e1 : nthI (Optimized.prefixSum power) (r + 1) = exactPrefixSum power (r.toNat + 1) := by
      have : (r + 1).toNat = r.toNat + 1 := by omega
      unfold nthI
      rw [this]
      exact Optimized.prefixSum_exact power hpow hn _ (by omega)
    have e2 : nthI (Optimized.prefixSum power) l = exactPrefixSum power l.toNat :=
      Optimized.prefixSum_exact power hpow hn _ (by omega)
    have e3 : ∑ k ∈ Finset.Icc l r, nthI power k = subSum power l.toNat r.toNat := by
      rw [← sum_Icc_nthI, Int.toNat_of_nonneg (by omega), Int.toNat_of_nonneg (by omega)]
    have hb := subSum_bounds power hpow hn l.toNat r.toNat (by omega) (by omega)
    unfold Optimized.contributionStep
    simp only
    rw [e1, e2, exactPrefixSum_sub power _ _ (by omega), e3, wrap64_eq (subSum power _ _)
      (by omega) (by omega), wrap64_eq _ (by omega) (by omega),
      Int.tmod_eq_emod (by omega) (by decide)]
  unfold Optimized.contribution
  rw [foldl_add_emod _ (fun l => ∑ r ∈ Finset.Ico i R, ∑ k ∈ Finset.Icc l r, nthI power k)
    _ hinner 0 (by decide), zero_add, sum_intRange, Ico_succ_eq_Ioc]
  rfl

/-- The normalised difference of two reduced prefix sums. -/
theorem SolutionFast.normDiff_eq (x y : Int) (hx : 0 ≤ x ∧ x < MOD) (hy : 0 ≤ y ∧ y < MOD) :
    SolutionFast.normDiff x y = (x - y) % MOD := by
  have hM : MOD = 1000000007 := rfl
  unfold SolutionFast.normDiff
  simp only
  rw [wrap64_eq _ (by omega) (by omega)]
  obtain ⟨h1, h2, h3⟩ := tmod_bounds (x - y) MOD (by decide)
  split_ifs with hneg
  · rw [← h3, ← Int.add_emod_self, Int.emod_eq_of_lt (by omega) (by omega)]
  · rw [← h3, Int.emod_eq_of_lt (by omega) (by omega)]

/-! ## Range of the result and of the helper `mod` -/

theorem foldl_mod_range {α : Type} (f : Int → α → Int)
    (hf : ∀ acc x, 0 ≤ f acc x ∧ f acc x < MOD) (l : List α) (a : Int)
    (ha : 0 ≤ a ∧ a < MOD) : 0 ≤ l.foldl f a ∧ l.foldl f a < MOD := by
  induction l generalizing a with
  | nil => exact ha
  | cons x l ih => exact ih _ (hf a x)

/-! ## Checked reads -/

theorem popWhileChecked_eq (c : Int → Int → Bool) (power : List Int) (x : Int) (st : List Nat)
    (hst : ∀ t ∈ st, t < power.length) :
    popWhileChecked c power x st = some (popWhile c power x st) := by
  induction st with
  | nil => rw [popWhileChecked]; simp [popWhile]
  | cons t st ih =>
    have ht : t < power.length := hst t (List.mem_cons_self _ _)
    rw [popWhileChecked]
    simp only [List.isEmpty_cons, Bool.false_eq_true, if_false, List.head?_cons, List.tail_cons,
      List.getElem?_eq_getElem ht]
    have hn : nth power t = power[t] := by
      unfold nth; exact List.getD_eq_getElem _ _ ht
    simp only [popWhile, hn]
    split_ifs
    · exact ih (fun u hu => hst u (List.mem_cons_of_mem _ hu))
    · rfl

theorem popWhile_subset (c : Int → Int → Bool) (power : List Int) (x : Int) (st : List Nat) :
    ∀ t ∈ popWhile c power x st, t ∈ st := by
  obtain ⟨popped, h1, -, -⟩ := popWhile_spec c power x st
  intro t ht
  rw [h1]
  exact List.mem_append_right _ ht

theorem topOrChecked_eq (dflt : Int) (st : List Nat) :
    topOrChecked dflt st = some (topOr dflt st) := by
  cases st <;> simp [topOrChecked, topOr]

theorem passStepChecked_eq (c : Int → Int → Bool) (dflt : Int) (power : List Int)
    (s : List Nat × List Int) (i : Nat) (hi : i < power.length)
    (hst : ∀ t ∈ s.1, t < power.length) (hlen : s.2.length = power.length) :
    passStepChecked c dflt power s i = some (passStep c dflt power s i) := by
  have hn : nth power i = power[i] := by
    unfold nth; exact List.getD_eq_getElem _ _ hi
  unfold passStepChecked
  simp only [List.getElem?_eq_getElem hi, ← hn, popWhileChecked_eq c power _ s.1 hst,
    topOrChecked_eq, hlen, hi, if_true]
  rfl

theorem passChecked_eq (c : Int → Int → Bool) (dflt : Int) (power : List Int) :
    ∀ (is : List Nat) (s : List Nat × List Int), (∀ i ∈ is, i < power.length) →
      (∀ t ∈ s.1, t < power.length) → s.2.length = power.length →
      passChecked c dflt power is s = some (is.foldl (passStep c dflt power) s) := by
  intro is
  induction is with
  | nil => intro s _ _ _; rfl
  | cons i is ih =>
    intro s his hst hlen
    have hi := his i (List.mem_cons_self _ _)
    simp only [passChecked, passStepChecked_eq c dflt power s i hi hst hlen, List.foldl_cons]
    apply ih _ (fun j hj => his j (List.mem_cons_of_mem _ hj))
    · intro t ht
      simp only [passStep, List.mem_cons] at ht
      rcases ht with rfl | ht
      · exact hi
      · exact hst t (popWhile_subset c power _ s.1 t ht)
    · simp [passStep, hlen]

/-! ## No overflow in `final_solution.cpp` -/

/-- The logged `j` loop computes the same `sumOfSums` as the plain one. -/
theorem FinalSolution.sumOfSumsLog_fst (power : List Int) (L R i : Int) (js : List Int)
    (s : Int × List Int) :
    (js.foldl (FinalSolution.sumOfSumsStepLog power L R i) s).1 =
      js.foldl (FinalSolution.sumOfSumsStep power L R i) s.1 := by
  induction js generalizing s with
  | nil => rfl
  | cons j js ih => rw [List.foldl_cons, List.foldl_cons, ih]; rfl

/-- The logged run returns the same `answer` as the plain one. -/
theorem FinalSolution.findTotalPowerLog_fst (power : List Int) :
    wrap32 (FinalSolution.findTotalPowerLog power).1 = FinalSolution.findTotalPower power := by
  unfold FinalSolution.findTotalPowerLog FinalSolution.findTotalPower
  congr 1
  generalize (List.range power.length) = is
  have h : ∀ (is : List Nat) (s : Int × List Int),
      (is.foldl (FinalSolution.answerStepLog power (prevSmaller power) (nextSmaller power)) s).1 =
        is.foldl (FinalSolution.answerStep power (prevSmaller power) (nextSmaller power)) s.1 := by
    intro is
    induction is with
    | nil => intro s; rfl
    | cons i is ih =>
      intro s
      rw [List.foldl_cons, List.foldl_cons, ih]
      congr 1
      simp only [FinalSolution.answerStepLog, FinalSolution.answerStep,
        FinalSolution.sumOfSumsLog_fst]
      rfl
  exact h is (0, [])

/-- Inside a window, the three values logged by the `j` loop fit 64 bits. -/
theorem FinalSolution.sumOfSumsLog_inRange (power : List Int)
    (hpow : ∀ x ∈ power, 0 ≤ x ∧ x < 2 ^ 31) (hn : power.length < 2 ^ 31) (L R i : Int)
    (hL : -1 ≤ L) (hLi : L < i) (hiR : i < R) (hR : R ≤ power.length) (js : List Int)
    (hjs : ∀ j ∈ js, L < j ∧ j < R) (s : Int × List Int) (hs : 0 ≤ s.1 ∧ s.1 < MOD)
    (hlog : ∀ v ∈ s.2, InInt64 v) :
    (0 ≤ (js.foldl (FinalSolution.sumOfSumsStepLog power L R i) s).1 ∧
      (js.foldl (FinalSolution.sumOfSumsStepLog power L R i) s).1 < MOD) ∧
    ∀ v ∈ (js.foldl (FinalSolution.sumOfSumsStepLog power L R i) s).2, InInt64 v := by
  have hM : MOD = 1000000007 := rfl
  induction js generalizing s with
  | nil => exact ⟨hs, hlog⟩
  | cons j js ih =>
    rw [List.foldl_cons]
    have hj := hjs j (List.mem_cons_self _ _)
    apply ih (fun k hk => hjs k (List.mem_cons_of_mem _ hk))
    · exact ⟨FinalSolution.mod_nonneg _, FinalSolution.mod_lt _⟩
    · have hp : 0 ≤ nthI power j ∧ nthI power j < 2 ^ 31 :=
        hpow _ (nth_mem power j.toNat (by omega))
      have hlc : 0 ≤ FinalSolution.leftCount L i j ∧ FinalSolution.leftCount L i j < 2 ^ 31 := by
        unfold FinalSolution.leftCount; split_ifs <;> omega
      have hrc : 0 ≤ FinalSolution.rightCount R i j ∧
          FinalSolution.rightCount R i j < 2 ^ 31 := by
        unfold FinalSolution.rightCount; split_ifs <;> omega
      have h1 : InInt64 (FinalSolution.leftCount L i j * FinalSolution.rightCount R i j) := by
        have a := mul_nonneg hlc.1 hrc.1
        have b : FinalSolution.leftCount L i j * FinalSolution.rightCount R i j < 2 ^ 62 := by
          nlinarith [hlc.1, hlc.2, hrc.1, hrc.2]
        unfold InInt64; omega
      have hf := FinalSolution.mod_nonneg
        (wrap64 (FinalSolution.leftCount L i j * FinalSolution.rightCount R i j))
      have hf' := FinalSolution.mod_lt
        (wrap64 (FinalSolution.leftCount L i j * FinalSolution.rightCount R i j))
      have h2 : InInt64 (FinalSolution.mod
          (wrap64 (FinalSolution.leftCount L i j * FinalSolution.rightCount R i j)) *
            nthI power j) := by
        have a := mul_nonneg hf hp.1
        have b : FinalSolution.mod
            (wrap64 (FinalSolution.leftCount L i j * FinalSolution.rightCount R i j)) *
              nthI power j < 2 ^ 62 := by
          nlinarith [hf, hf', hp.1, hp.2]
        unfold InInt64; omega
      have hc := FinalSolution.mod_nonneg (wrap64 (FinalSolution.mod
          (wrap64 (FinalSolution.leftCount L i j * FinalSolution.rightCount R i j)) *
            nthI power j))
      have hc' := FinalSolution.mod_lt (wrap64 (FinalSolution.mod
          (wrap64 (FinalSolution.leftCount L i j * FinalSolution.rightCount R i j)) *
            nthI power j))
      intro v hv
      simp only [FinalSolution.sumOfSumsStepLog, List.mem_append, List.mem_cons,
        List.mem_singleton, List.not_mem_nil, or_false] at hv
      rcases hv with hv | rfl | rfl | rfl
      · exact hlog v hv
      · exact h1
      · exact h2
      · unfold InInt64; omega

/-- Every value logged by the whole run fits 64 bits. -/
theorem FinalSolution.intermediates_inRange (power : List Int)
    (hpow : ∀ x ∈ power, 0 ≤ x ∧ x < 2 ^ 31) (hn : power.length < 2 ^ 31) :
    ∀ v ∈ FinalSolution.intermediates power, InInt64 v := by
  have hM : MOD = 1000000007 := rfl
  have h : ∀ (is : List Nat) (s : Int × List Int), (∀ i ∈ is, i < power.length) →
      (0 ≤ s.1 ∧ s.1 < MOD) → (∀ v ∈ s.2, InInt64 v) →
      ∀ v ∈ (is.foldl (FinalSolution.answerStepLog power (prevSmaller power)
        (nextSmaller power)) s).2, InInt64 v := by
    intro is
    induction is with
    | nil => intro s _ _ hlog; exact hlog
    | cons i is ih =>
      intro s his hs hlog
      rw [List.foldl_cons]
      have hi := his i (List.mem_cons_self _ _)
      obtain ⟨e1, e2, a1, a2, a3, -⟩ := window_spec power i hi
      have hin := FinalSolution.sumOfSumsLog_inRange power hpow hn
        (nth (prevSmaller power) i) (nth (nextSmaller power) i) i
        (by omega) (by omega) (by omega) (by omega)
        (intRange (nth (prevSmaller power) i + 1) (nth (nextSmaller power) i))
        (fun j hj => by rw [mem_intRange] at hj; omega) (0, s.2)
        (show (0 : Int) ≤ 0 ∧ (0 : Int) < MOD by decide) hlog
      have hp : 0 ≤ nth power i ∧ nth power i < 2 ^ 31 := hpow _ (nth_mem power i hi)
      apply ih _ (fun k hk => his k (List.mem_cons_of_mem _ hk))
      · exact ⟨FinalSolution.mod_nonneg _, FinalSolution.mod_lt _⟩
      · intro v hv
        simp only [FinalSolution.answerStepLog, List.mem_append, List.mem_cons,
          List.mem_singleton, List.not_mem_nil, or_false] at hv
        rcases hv with hv | rfl | rfl
        · exact hin.2 v hv
        · have a := mul_nonneg hp.1 hin.1.1
          have b : nth power i * ((intRange (nth (prevSmaller power) i + 1)
              (nth (nextSmaller power) i)).foldl (FinalSolution.sumOfSumsStepLog power
                (nth (prevSmaller power) i) (nth (nextSmaller power) i) i) (0, s.2)).1 <
              2 ^ 62 := by
            nlinarith [hp.1, hp.2, hin.1.1, hin.1.2]
          unfold InInt64; omega
        · have c := FinalSolution.mod_nonneg (wrap64 (nth power i * ((intRange
              (nth (prevSmaller power) i + 1) (nth (nextSmaller power) i)).foldl
              (FinalSolution.sumOfSumsStepLog power (nth (prevSmaller power) i)
                (nth (nextSmaller power) i) i) (0, s.2)).1))
          have c' := FinalSolution.mod_lt (wrap64 (nth power i * ((intRange
              (nth (prevSmaller power) i + 1) (nth (nextSmaller power) i)).foldl
              (FinalSolution.sumOfSumsStepLog power (nth (prevSmaller power) i)
                (nth (nextSmaller power) i) i) (0, s.2)).1))
          unfold InInt64; omega
  exact h _ (0, []) (fun k hk => List.mem_range.1 hk) (by decide) (by simp)

/-- Over unbounded integers the `j` loop computes the collapsed sum modulo
`MOD`, on every input. -/
theorem FinalSolution.sumOfSumsExact_eq (power : List Int) (L R i : Int) :
    FinalSolution.sumOfSumsExact power L R i = collapsedSum power L R i % MOD := by
  unfold FinalSolution.sumOfSumsExact
  rw [foldl_add_emod _ (fun j => FinalSolution.leftCount L i j *
    FinalSolution.rightCount R i j * nthI power j) _ _ 0 (by decide), zero_add,
    sum_intRange, Ico_succ_eq_Ioo]
  · rfl
  · intro j _ acc _ _
    simp only [FinalSolution.sumOfSumsStepExact, FinalSolution.mod_eq_emod]
    rw [emod_mul_emod_left]
    exact Int.add_emod_emod _ _ _

/-- Over unbounded integers the three loops compute the specified result, on
every input. -/
theorem FinalSolution.findTotalPowerExact_eq_sum (power : List Int) :
    FinalSolution.findTotalPowerExact power =
      (∑ i ∈ Finset.range power.length, nth power i *
        collapsedSum power (nth (prevSmaller power) i) (nth (nextSmaller power) i) i) % MOD := by
  unfold FinalSolution.findTotalPowerExact
  rw [foldl_add_emod _ (fun i : Nat => nth power i *
    collapsedSum power (nth (prevSmaller power) i) (nth (nextSmaller power) i) i) _ _ 0
    (by decide), zero_add, sum_map_range]
  intro i _ acc _ _
  simp only [FinalSolution.answerStepExact, FinalSolution.mod_eq_emod,
    FinalSolution.sumOfSumsExact_eq]
  rw [mul_emod_emod_right]
  exact Int.add_emod_emod _ _ _

/-! ## Monotonicity of the stack -/

/-- After a loop over a non-empty list of indices the last one is on top. -/
theorem foldl_passStep_head (c : Int → Int → Bool) (dflt : Int) (power : List Int) :
    ∀ (is : List Nat) (s : List Nat × List Int), is ≠ [] →
      (is.foldl (passStep c dflt power) s).1.head? = is.getLast? := by
  intro is
  induction is with
  | nil => intro s h; exact absurd rfl h
  | cons i is ih =>
    intro s _
    cases is with
    | nil => simp [passStep]
    | cons j js =>
      rw [List.foldl_cons, ih _ (by simp)]
      simp [List.getLast?_cons_cons]

/-- The values on the stack stay ordered: no entry would be popped by the
entry above it. -/
theorem foldl_passStep_values (c : Int → Int → Bool) (dflt : Int) (power : List Int)
    (hnc : ∀ x y z, c x y = false → c y z = false → c x z = false) :
    ∀ (is : List Nat) (s : List Nat × List Int),
      s.1.Pairwise (fun a b => c (nth power b) (nth power a) = false) →
      (is.foldl (passStep c dflt power) s).1.Pairwise
        (fun a b => c (nth power b) (nth power a) = false) := by
  intro is
  induction is with
  | nil => intro s h; exact h
  | cons i is ih =>
    intro s h
    rw [List.foldl_cons]
    apply ih
    obtain ⟨popped, hst, -, htop⟩ := popWhile_spec c power (nth power i) s.1
    rw [hst, List.pairwise_append] at h
    obtain ⟨-, h', -⟩ := h
    simp only [passStep, List.pairwise_cons]
    refine ⟨fun b hb => ?_, h'⟩
    cases hpw : popWhile c power (nth power i) s.1 with
    | nil => rw [hpw] at hb; simp at hb
    | cons t rest =>
      rw [hpw] at hb h'
      have ht := htop t rest hpw
      rcases List.mem_cons.1 hb with rfl | hb
      · exact ht
      · exact hnc _ _ _ ((List.pairwise_cons.1 h').1 b hb) ht

theorem getLast?_take_range (n k : Nat) (hk0 : 0 < k) (hk : k ≤ n) :
    ((List.range n).take k).getLast? = some (k - 1) := by
  rw [List.take_range, Nat.min_eq_left hk]
  obtain ⟨m, rfl⟩ : ∃ m, k = m + 1 := ⟨k - 1, by omega⟩
  rw [List.range_succ, List.getLast?_concat]
  rfl

theorem getLast?_take_reverse_range (n k : Nat) (hk0 : 0 < k) (hk : k ≤ n) :
    ((List.range n).reverse.take k).getLast? = some (n - k) := by
  rw [List.getLast?_eq_getElem?]
  have hlen : ((List.range n).reverse.take k).length = k := by simp [hk]
  rw [hlen, List.getElem?_take_of_lt (by omega), List.getElem?_reverse (by simp; omega)]
  simp only [List.length_range]
  rw [List.getElem?_range (by omega)]
  congr 1
  omega

/-- Stack invariants of the first pass after `k` iterations. -/
theorem prevSmallerPassAfter_stack (power : List Int) (k : Nat) (hk0 : 0 < k)
    (hk : k ≤ power.length) :
    (prevSmallerPassAfter power k).1.head? = some (k - 1) ∧
    (prevSmallerPassAfter power k).1.Pairwise (fun a b => b < a) ∧
    (prevSmallerPassAfter power k).1.Pairwise (fun a b => nth power b < nth power a) := by
  have hne : (List.range power.length).take k ≠ [] := by
    intro h
    have := getLast?_take_range power.length k hk0 hk
    rw [h] at this
    simp at this
  refine ⟨?_, ?_, ?_⟩
  · unfold prevSmallerPassAfter
    rw [foldl_passStep_head _ _ _ _ _ hne, getLast?_take_range _ _ hk0 hk]
  · have h := @pass_boundary (fun a b => a < b) (fun a b => decide (a ≥ b))
      (-1) power ((List.range power.length).take k)
      (fun a => lt_irrefl a) (fun a b d => lt_trans)
      (by intro x y z h1 h2; simp only [decide_eq_true_eq] at *; omega)
      ((List.pairwise_lt_range _).sublist (List.take_sublist _ _))
      (fun i hi => List.mem_range.1 (List.mem_of_mem_take hi))
    exact h.sorted
  · have h := foldl_passStep_values (fun a b => decide (a ≥ b)) (-1) power
      (by intro x y z h1 h2; simp only [decide_eq_false_iff_not, not_le] at *; omega)
      ((List.range power.length).take k) ([], List.replicate power.length 0) (by simp)
    refine List.Pairwise.imp ?_ h
    intro a b hab
    simpa using hab

/-- Stack invariants of the second pass after `k` iterations. -/
theorem nextSmallerPassAfter_stack (power : List Int) (k : Nat) (hk0 : 0 < k)
    (hk : k ≤ power.length) :
    (nextSmallerPassAfter power k).1.head? = some (power.length - k) ∧
    (nextSmallerPassAfter power k).1.Pairwise (fun a b => a < b) ∧
    (nextSmallerPassAfter power k).1.Pairwise (fun a b => nth power b ≤ nth power a) := by
  have hne : (List.range power.length).reverse.take k ≠ [] := by
    intro h
    have := getLast?_take_reverse_range power.length k hk0 hk
    rw [h] at this
    simp at this
  refine ⟨?_, ?_, ?_⟩
  · unfold nextSmallerPassAfter
    rw [foldl_passStep_head _ _ _ _ _ hne, getLast?_take_reverse_range _ _ hk0 hk]
  · have h := @pass_boundary (fun a b => b < a) (fun a b => decide (a > b))
      (power.length : Int) power ((List.range power.length).reverse.take k)
      (fun a => lt_irrefl a) (fun a b d h1 h2 => lt_trans h2 h1)
      (by intro x y z h1 h2; simp only [decide_eq_true_eq] at *; omega)
      ((List.pairwise_reverse.2 (List.pairwise_lt_range _)).sublist (List.take_sublist _ _))
      (fun i hi => List.mem_range.1 (List.mem_reverse.1 (List.mem_of_mem_take hi)))
    exact h.sorted
  · have h := foldl_passStep_values (fun a b => decide (a > b)) (power.length : Int) power
      (by intro x y z h1 h2; simp only [decide_eq_false_iff_not, not_lt] at *; omega)
      ((List.range power.length).reverse.take k) ([], List.replicate power.length 0) (by simp)
    refine List.Pairwise.imp ?_ h
    intro a b hab
    simpa using hab

theorem prevSmallerPassAfter_length (power : List Int) :
    prevSmallerPassAfter power power.length = prevSmallerPass power := by
  unfold prevSmallerPassAfter prevSmallerPass
  rw [List.take_of_length_le (by simp)]

theorem nextSmallerPassAfter_length (power : List Int) :
    nextSmallerPassAfter power power.length = nextSmallerPass power := by
  unfold nextSmallerPassAfter nextSmallerPass
  rw [List.take_of_length_le (by simp)]

/-! ## The two brute-force variants agree -/

/-- The running minimum and running sum of `solution.cpp` are the minimum and
sum that `findTotalPower.cpp` recomputes, and the totals agree, after any
number `m` of iterations of the `r` loop. -/
theorem solution_inner_eq_cubic (power : List Int) (l : Nat) (total : Int) (m : Nat) :
    (List.range' l m).foldl (Solution.innerStep power) (nth power l, 0, total) =
      ((List.range' l m).foldl (fun mn i => min mn (nth power i)) (nth power l),
       (List.range' l m).foldl (fun s i => wrap64 (s + nth power i)) 0,
       (List.range' l m).foldl (FindTotalPower.innerStep power l) total) := by
  induction m with
  | zero => rfl
  | succ m ih =>
    rw [List.range'_1_concat, List.foldl_append, List.foldl_append, List.foldl_append,
      List.foldl_append, ih]
    simp only [List.foldl_cons, List.foldl_nil, Solution.innerStep, FindTotalPower.innerStep,
      FindTotalPower.minPower, FindTotalPower.sumPower]
    have e : l + m + 1 - l = m + 1 := by omega
    rw [e, List.range'_1_concat, List.foldl_append, List.foldl_append]
    rfl

theorem solution_outerStep_eq_cubic (power : List Int) (total : Int) (l : Nat) :
    Solution.outerStep power total l = FindTotalPower.outerStep power total l := by
  unfold Solution.outerStep FindTotalPower.outerStep
  rw [solution_inner_eq_cubic]

/-! ## `solution_optimal.cpp` and `findTotalPower_optimized.cpp` meet the specification -/

theorem sum_Ico_int_split (f : Int → Int) (a b c : Int) (hab : a ≤ b) (hbc : b ≤ c) :
    ∑ j ∈ Finset.Ico a c, f j = ∑ j ∈ Finset.Ico a b, f j + ∑ j ∈ Finset.Ico b c, f j := by
  rw [← Finset.sum_union (Finset.Ico_disjoint_Ico_consecutive a b c),
    Finset.Ico_union_Ico_eq_Ico hab hbc]

theorem sum_Ico_int_single (f : Int → Int) (i : Int) : ∑ j ∈ Finset.Ico i (i + 1), f j = f i := by
  have : Finset.Ico i (i + 1) = {i} := by
    ext j; simp only [Finset.mem_Ico, Finset.mem_singleton]; omega
  rw [this, Finset.sum_singleton]

/-- The collapsed sum split at `i`: the elements left of `i`, `i` itself, and
the elements right of `i`. -/
theorem collapsedSum_split (power : List Int) (L R : Int) (i : Nat) (hLi : L < i) (hiR : (i : Int) < R) :
    collapsedSum power L R i =
      nth power i * ((i : Int) - L) * (R - (i : Int)) +
      ∑ j ∈ Finset.Ico (L + 1) (i : Int), (j - L) * (R - (i : Int)) * nthI power j +
      ∑ j ∈ Finset.Ico ((i : Int) + 1) R, ((i : Int) - L) * (R - j) * nthI power j := by
  unfold collapsedSum
  rw [← Ico_succ_eq_Ioo, sum_Ico_int_split _ (L + 1) (i : Int) R (by omega) (by omega),
    sum_Ico_int_split _ (i : Int) ((i : Int) + 1) R (by omega) (by omega), sum_Ico_int_single]
  have h1 : ∑ j ∈ Finset.Ico (L + 1) (i : Int),
      FinalSolution.leftCount L i j * FinalSolution.rightCount R i j * nthI power j =
      ∑ j ∈ Finset.Ico (L + 1) (i : Int), (j - L) * (R - (i : Int)) * nthI power j := by
    apply Finset.sum_congr rfl
    intro j hj
    simp only [Finset.mem_Ico] at hj
    simp only [FinalSolution.leftCount, FinalSolution.rightCount, if_pos hj.2.le]
  have h2 : ∑ j ∈ Finset.Ico ((i : Int) + 1) R,
      FinalSolution.leftCount L i j * FinalSolution.rightCount R i j * nthI power j =
      ∑ j ∈ Finset.Ico ((i : Int) + 1) R, ((i : Int) - L) * (R - j) * nthI power j := by
    apply Finset.sum_congr rfl
    intro j hj
    simp only [Finset.mem_Ico] at hj
    have : ¬ j ≤ (i : Int) := by omega
    simp only [FinalSolution.leftCount, FinalSolution.rightCount, if_neg this]
  have h3 : FinalSolution.leftCount L i i * FinalSolution.rightCount R i i * nthI power i =
      nth power i * ((i : Int) - L) * (R - (i : Int)) := by
    simp only [FinalSolution.leftCount, FinalSolution.rightCount, le_refl, if_true, nthI, nth,
      Int.toNat_ofNat]
    ring
  rw [h1, h2, h3]
  ring

/-- A product of two values below `2^31` and `MOD`, or `2^31` and `2^31`,
fits 64 bits and `%` on it is the mathematical remainder. -/
theorem wrap_tmod_mul (a b : Int) (ha : 0 ≤ a ∧ a < 2 ^ 31) (hb : 0 ≤ b ∧ b < 2 ^ 31) :
    (wrap64 (a * b)).tmod MOD = (a * b) % MOD := by
  have h0 := mul_nonneg ha.1 hb.1
  have h1 : a * b < 2 ^ 62 := by nlinarith [ha.1, ha.2, hb.1, hb.2]
  rw [wrap64_eq _ (by omega) (by omega), Int.tmod_eq_emod h0 (by decide)]

theorem wrap_tmod_add (a b : Int) (ha : 0 ≤ a ∧ a < MOD) (hb : 0 ≤ b ∧ b < MOD) :
    (wrap64 (a + b)).tmod MOD = (a + b) % MOD := by
  have hM : MOD = 1000000007 := rfl
  rw [wrap64_eq _ (by omega) (by omega), Int.tmod_eq_emod (by omega) (by decide)]

theorem emod_MOD_range (x : Int) : 0 ≤ x % MOD ∧ x % MOD < 2 ^ 31 := by
  have hM : MOD = 1000000007 := rfl
  have h1 := Int.emod_nonneg x (show MOD ≠ 0 by decide)
  have h2 := Int.emod_lt_of_pos x (show 0 < MOD by decide)
  omega

theorem emod_MOD_lt (x : Int) : 0 ≤ x % MOD ∧ x % MOD < MOD :=
  ⟨Int.emod_nonneg x (by decide), Int.emod_lt_of_pos x (by decide)⟩

/-- The self contribution and the two loops of `solution_optimal.cpp` compute
the collapsed sum modulo `MOD`. -/
theorem SolutionOptimal.optimal_sumOfSums_eq (power : List Int)
    (hpow : ∀ x ∈ power, 0 ≤ x ∧ x < 2 ^ 31) (hn : power.length < 2 ^ 31) (L R : Int) (i : Nat)
    (hi : i < power.length) (hL : -1 ≤ L) (hLi : L < i) (hiR : (i : Int) < R)
    (hR : R ≤ power.length) :
    SolutionOptimal.sumOfSums power L R i = collapsedSum power L R i % MOD := by
  have hM : MOD = 1000000007 := rfl
  have hp : 0 ≤ nth power i ∧ nth power i < 2 ^ 31 := hpow _ (nth_mem power i hi)
  have hself : SolutionOptimal.selfContribution power L R i =
      (nth power i * ((i : Int) - L) * (R - (i : Int))) % MOD := by
    unfold SolutionOptimal.selfContribution
    simp only
    rw [wrap_tmod_mul (nth power i) ((i : Int) - L) hp (by omega),
      wrap_tmod_mul _ _ (emod_MOD_range _) (by omega),
      Int.tmod_eq_emod (emod_MOD_lt _).1 (by decide), Int.emod_emod, emod_mul_emod_left]
  have hleft : ∀ j ∈ intRange (L + 1) i, ∀ acc, 0 ≤ acc → acc < MOD →
      SolutionOptimal.leftStep power L R i acc j =
        (acc + (j - L) * (R - (i : Int)) * nthI power j) % MOD := by
    intro j hj acc h0 h1
    rw [mem_intRange] at hj
    have hpj : 0 ≤ nthI power j ∧ nthI power j < 2 ^ 31 :=
      hpow _ (nth_mem power j.toNat (by omega))
    unfold SolutionOptimal.leftStep
    simp only
    rw [wrap_tmod_mul (j - L) (R - (i : Int)) (by omega) (by omega),
      wrap_tmod_mul _ _ (emod_MOD_range _) hpj,
      wrap_tmod_add _ _ ⟨h0, h1⟩ (emod_MOD_lt _), emod_mul_emod_left]
    exact Int.add_emod_emod _ _ _
  have hright : ∀ j ∈ intRange ((i : Int) + 1) R, ∀ acc, 0 ≤ acc → acc < MOD →
      SolutionOptimal.rightStep power L R i acc j =
        (acc + ((i : Int) - L) * (R - j) * nthI power j) % MOD := by
    intro j hj acc h0 h1
    rw [mem_intRange] at hj
    have hpj : 0 ≤ nthI power j ∧ nthI power j < 2 ^ 31 :=
      hpow _ (nth_mem power j.toNat (by omega))
    unfold SolutionOptimal.rightStep
    simp only
    rw [wrap_tmod_mul ((i : Int) - L) (R - j) (by omega) (by omega),
      wrap_tmod_mul _ _ (emod_MOD_range _) hpj,
      wrap_tmod_add _ _ ⟨h0, h1⟩ (emod_MOD_lt _), emod_mul_emod_left]
    exact Int.add_emod_emod _ _ _
  unfold SolutionOptimal.sumOfSums
  simp only
  rw [hself, wrap_tmod_add _ _ (by decide) (emod_MOD_lt _), zero_add, Int.emod_emod,
    foldl_add_emod _ _ _ hleft _ (emod_MOD_lt _),
    foldl_add_emod _ _ _ hright _ (emod_MOD_lt _), sum_intRange, sum_intRange,
    collapsedSum_split power L R i hLi hiR, Int.emod_add_emod, add_assoc, Int.emod_add_emod,
    ← add_assoc]

/-- The function of `solution_optimal.cpp` computes the specified result. -/
theorem SolutionOptimal.optimal_eq_spec (power : List Int)
    (hpow : ∀ x ∈ power, 0 ≤ x ∧ x < 2 ^ 31) (hn : power.length < 2 ^ 31) :
    SolutionOptimal.findTotalPower power = specTotalPower power := by
  have hM : MOD = 1000000007 := rfl
  have hstep : ∀ i ∈ List.range power.length, ∀ acc, 0 ≤ acc → acc < MOD →
      SolutionOptimal.resultStep power (prevSmaller power) (nextSmaller power) acc i =
        (acc + nth power i * enumeratedSum power (nth (prevSmaller power) i)
          (nth (nextSmaller power) i) i) % MOD := by
    intro i hi acc h0 h1
    have hi' := List.mem_range.1 hi
    obtain ⟨e1, e2, a1, a2, a3, -⟩ := window_spec power i hi'
    have hp : 0 ≤ nth power i ∧ nth power i < 2 ^ 31 := hpow _ (nth_mem power i hi')
    unfold SolutionOptimal.resultStep
    simp only
    rw [SolutionOptimal.optimal_sumOfSums_eq power hpow hn _ _ i hi' (by omega) (by omega) (by omega)
      (by omega), enumeratedSum_eq_collapsedSum power _ _ i (by omega) (by omega),
      wrap_tmod_mul _ _ hp (emod_MOD_range _), wrap_tmod_add _ _ ⟨h0, h1⟩ (emod_MOD_lt _),
      mul_emod_emod_right]
    exact Int.add_emod_emod _ _ _
  unfold SolutionOptimal.findTotalPower
  rw [foldl_add_emod _ _ _ hstep 0 (by decide), zero_add, sum_map_range,
    contribution_sum_eq_bruteForceSum, wrap32_eq _ (by have := emod_MOD_lt (bruteForceSum power); omega)
      (by have := emod_MOD_lt (bruteForceSum power); omega)]
  rfl

/-- The function of `findTotalPower_optimized.cpp` computes the specified
result. -/
theorem Optimized.optimized_eq_spec (power : List Int)
    (hpow : ∀ x ∈ power, 0 ≤ x ∧ x < 2 ^ 31) (hn : power.length < 2 ^ 31) :
    Optimized.findTotalPower power = specTotalPower power := by
  have hM : MOD = 1000000007 := rfl
  have hstep : ∀ i ∈ List.range power.length, ∀ acc, 0 ≤ acc → acc < MOD →
      Optimized.totalStep power (prevSmaller power) (nextSmaller power)
        (Optimized.prefixSum power) acc i =
        (acc + nth power i * enumeratedSum power (nth (prevSmaller power) i)
          (nth (nextSmaller power) i) i) % MOD := by
    intro i hi acc h0 h1
    have hi' := List.mem_range.1 hi
    obtain ⟨e1, e2, a1, a2, a3, -⟩ := window_spec power i hi'
    have hp : 0 ≤ nth power i ∧ nth power i < 2 ^ 31 := hpow _ (nth_mem power i hi')
    unfold Optimized.totalStep
    simp only
    rw [Optimized.contribution_eq power hpow hn _ _ i (by omega) (by omega) (by omega),
      wrap_tmod_mul _ _ (emod_MOD_range _) hp, wrap_tmod_add _ _ ⟨h0, h1⟩ (emod_MOD_lt _),
      emod_mul_emod_left, mul_comm]
    exact Int.add_emod_emod _ _ _
  unfold Optimized.findTotalPower
  rw [foldl_add_emod _ _ _ hstep 0 (by decide), zero_add, sum_map_range,
    contribution_sum_eq_bruteForceSum, wrap32_eq _ (by have := emod_MOD_lt (bruteForceSum power); omega)
      (by have := emod_MOD_lt (bruteForceSum power); omega)]
  rfl

/-! ## The number of `j`-loop iterations of `solution_O_n.cpp` -/

theorem SolutionOn.totalSumStep_count (power : List Int) (L R i : Int) (js : List Int)
    (s : Int × Nat) :
    (js.foldl (SolutionOn.totalSumStep power L R i) s).2 = s.2 + js.length := by
  induction js generalizing s with
  | nil => rfl
  | cons j js ih =>
    rw [List.foldl_cons, ih]
    simp only [SolutionOn.totalSumStep, List.length_cons]
    omega

theorem SolutionOn.resultStep_count (power left right : List Int) (is : List Nat)
    (s : Int × Nat) :
    (is.foldl (SolutionOn.resultStep power left right) s).2 =
      s.2 + (is.map (fun i => (intRange (nth left i + 1) (nth right i)).length)).sum := by
  induction is generalizing s with
  | nil => rfl
  | cons i is ih =>
    rw [List.foldl_cons, ih]
    simp only [SolutionOn.resultStep, SolutionOn.totalSumStep_count, List.map_cons,
      List.sum_cons]
    omega

theorem sum_map_range_nat (g : Nat → Nat) (m : Nat) :
    ((List.range m).map g).sum = ∑ k ∈ Finset.range m, g k := by
  induction m with
  | zero => simp
  | succ m ih => rw [List.range_succ, List.map_append, List.sum_append, ih, Finset.sum_range_succ]; simp

/-- The counter is the sum of the window sizes `right[i] - left[i] - 1`. -/
theorem SolutionOn.jLoopIterations_eq (power : List Int) :
    (SolutionOn.jLoopIterations power : Int) = ∑ i ∈ Finset.range power.length,
      (nth (nextSmaller power) i - nth (prevSmaller power) i - 1) := by
  unfold SolutionOn.jLoopIterations SolutionOn.findTotalPowerCounted
  rw [SolutionOn.resultStep_count, sum_map_range_nat]
  push_cast
  rw [zero_add]
  apply Finset.sum_congr rfl
  intro i hi
  obtain ⟨e1, e2, a1, a2, a3, -⟩ := window_spec power i (Finset.mem_range.1 hi)
  simp only [intRange, List.length_map, List.length_range]
  omega

theorem nth_replicate_zero (n k : Nat) : nth (List.replicate n 0) k = 0 := by
  unfold nth
  rw [List.getD_eq_getElem?_getD, List.getElem?_replicate]
  split_ifs <;> rfl

/-- On a constant sequence the window of `i` is `(-1, i + 1)`. -/
theorem window_replicate_zero (n i : Nat) (hi : i < n) :
    nth (prevSmaller (List.replicate n 0)) i = -1 ∧
    nth (nextSmaller (List.replicate n 0)) i = (i : Int) + 1 := by
  have hlen : (List.replicate n (0 : Int)).length = n := List.length_replicate _ _
  constructor
  · rcases prevSmaller_boundary (List.replicate n 0) i (by rw [hlen]; exact hi) with
      ⟨hv, -⟩ | ⟨t, -, -, hlt, -⟩
    · exact hv
    · rw [nth_replicate_zero, nth_replicate_zero] at hlt
      exact absurd hlt (lt_irrefl _)
  · rcases nextSmaller_boundary (List.replicate n 0) i (by rw [hlen]; exact hi) with
      ⟨hv, hall⟩ | ⟨t, hv, hit, htn, -, hall⟩
    · rw [hlen] at hv hall
      have : i + 1 = n := by
        by_contra hne
        have := hall (i + 1) (by omega) (by omega)
        rw [nth_replicate_zero, nth_replicate_zero] at this
        exact absurd this (lt_irrefl _)
      rw [hv, ← this]
      push_cast
      ring
    · have : t = i + 1 := by
        by_contra hne
        have := hall (i + 1) (by omega) (by omega)
        rw [nth_replicate_zero, nth_replicate_zero] at this
        exact absurd this (lt_irrefl _)
      rw [hv, this]
      push_cast
      ring

/-- On a constant sequence of length `n` the body of the `j` loop runs
`n * (n + 1) / 2` times. -/
theorem SolutionOn.jLoopIterations_replicate (n : Nat) :
    2 * SolutionOn.jLoopIterations (List.replicate n 0) = n * (n + 1) := by
  have hlen : (List.replicate n (0 : Int)).length = n := List.length_replicate _ _
  have h := SolutionOn.jLoopIterations_eq (List.replicate n 0)
  rw [hlen] at h
  have h2 : ∑ i ∈ Finset.range n, (nth (nextSmaller (List.replicate n 0)) i -
      nth (prevSmaller (List.replicate n 0)) i - 1) = ∑ i ∈ Finset.range n, ((i : Int) + 1) := by
    apply Finset.sum_congr rfl
    intro i hi
    obtain ⟨e1, e2⟩ := window_replicate_zero n i (Finset.mem_range.1 hi)
    rw [e1, e2]
    ring
  rw [h2] at h
  have h3 : ∀ m : Nat, 2 * ∑ i ∈ Finset.range m, ((i : Int) + 1) = (m : Int) * ((m : Int) + 1) := by
    intro m
    induction m with
    | zero => simp
    | succ m ih => rw [Finset.sum_range_succ, mul_add, ih]; push_cast; ring
  have h4 : (2 : Int) * (SolutionOn.jLoopIterations (List.replicate n 0) : Int) =
      (n : Int) * ((n : Int) + 1) := by rw [h, h3]
  exact_mod_cast h4

/-! ## Counting the subarrays through the windows -/

/-- Every subarray `[l, r]` with `l <= r < n` is counted by exactly one index. -/
theorem count_over_indices (power : List Int) (l r : Nat) (hr : r < power.length) :
    ∑ i ∈ Finset.range power.length, (if InWindow power i l r then (1 : Int) else 0) =
      if l ≤ r then 1 else 0 := by
  by_cases hlr : l ≤ r
  · rw [if_pos hlr]
    obtain ⟨i0, h0, huniq⟩ := existsUnique_designated power l r hlr
    have hi0 : i0 < power.length := lt_of_le_of_lt h0.2.1 hr
    rw [Finset.sum_eq_single i0]
    · rw [if_pos ((inWindow_iff_designated power i0 l r hr).2 h0)]
    · intro i _ hne
      rw [if_neg]
      intro hw
      exact hne (huniq i ((inWindow_iff_designated power i l r hr).1 hw))
    · intro hnot
      exact absurd (Finset.mem_range.2 hi0) hnot
  · rw [if_neg hlr]
    apply Finset.sum_eq_zero
    intro i _
    rw [if_neg]
    intro hw
    exact hlr (le_trans hw.2.1 hw.2.2.1)

/-- The product `left * right` is the number of subarrays in the window of `i`. -/
theorem left_mul_right_eq_card (power : List Int) (i : Nat) (hi : i < power.length) :
    FinalSolution.left (prevSmaller power) i * FinalSolution.right (nextSmaller power) i =
      ∑ _l ∈ Finset.Ico (winLo power i) (i + 1), ∑ _r ∈ Finset.Ico i (winHi power i), (1 : Int) := by
  obtain ⟨e1, e2, a1, a2, -⟩ := window_spec power i hi
  unfold FinalSolution.left FinalSolution.right
  rw [e1, e2]
  simp only [Finset.sum_const, Nat.card_Ico, nsmul_eq_mul, mul_one]
  rw [Nat.cast_sub (by omega), Nat.cast_sub (by omega)]
  push_cast
  ring

theorem two_mul_sum_range_sub (n : Nat) :
    2 * ∑ l ∈ Finset.range n, (((n - l : Nat) : Nat) : Int) = (n : Int) * ((n : Int) + 1) := by
  have h : ∀ m : Nat, 2 * ∑ l ∈ Finset.range m, ((l : Int) + 1) = (m : Int) * ((m : Int) + 1) := by
    intro m
    induction m with
    | zero => simp
    | succ m ih => rw [Finset.sum_range_succ, mul_add, ih]; push_cast; ring
  rw [← h n, ← Finset.sum_range_reflect]
  congr 1
  apply Finset.sum_congr rfl
  intro l hl
  have := Finset.mem_range.1 hl
  rw [show n - (n - 1 - l) = l + 1 by omega]
  push_cast
  ring

/-- Twice the sum of the window sizes is `n * (n + 1)`. -/
theorem two_mul_sum_left_mul_right (power : List Int) :
    2 * ∑ i ∈ Finset.range power.length,
      FinalSolution.left (prevSmaller power) i * FinalSolution.right (nextSmaller power) i =
      (power.length : Int) * ((power.length : Int) + 1) := by
  have h1 : ∀ i ∈ Finset.range power.length,
      FinalSolution.left (prevSmaller power) i * FinalSolution.right (nextSmaller power) i =
      ∑ l ∈ Finset.range power.length, ∑ r ∈ Finset.range power.length,
        if InWindow power i l r then (1 : Int) else 0 := by
    intro i hi
    have hi' := Finset.mem_range.1 hi
    rw [left_mul_right_eq_card power i hi', window_sum_as_guarded power i hi' (fun _ _ => 1)]
  rw [Finset.sum_congr rfl h1, Finset.sum_comm]
  have h2 : ∀ l ∈ Finset.range power.length,
      ∑ i ∈ Finset.range power.length, ∑ r ∈ Finset.range power.length,
        (if InWindow power i l r then (1 : Int) else 0) = ((power.length - l : Nat) : Int) := by
    intro l hl
    have hl' := Finset.mem_range.1 hl
    rw [Finset.sum_comm]
    rw [Finset.sum_congr rfl (fun r hr => count_over_indices power l r (Finset.mem_range.1 hr)),
      ← Finset.sum_filter, Finset.sum_const, nsmul_eq_mul, mul_one]
    have : (Finset.range power.length).filter (fun r => l ≤ r) = Finset.Ico l power.length := by
      ext r; simp only [Finset.mem_filter, Finset.mem_range, Finset.mem_Ico]; omega
    rw [this, Nat.card_Ico]
  rw [Finset.sum_congr rfl h2]
  exact two_mul_sum_range_sub power.length

/-! ## The claims -/

set_option maxRecDepth 100000

/-- C1. On every sequence of non-negative `int` values (length `n` held in an
`int`), `findTotalPower` of `final_solution.cpp` returns the sum over all
`0 <= l <= r < n` of `min(power[l..r]) * sum(power[l..r])`, computed over exact
integers and reduced modulo `1000000007`. -/
theorem final_solution_meets_spec (power : List Int)
    (hpow : ∀ x ∈ power, 0 ≤ x ∧ x < 2 ^ 31) (hn : power.length < 2 ^ 31) :
    FinalSolution.findTotalPower power = specTotalPower power :=
  FinalSolution.findTotalPower_eq_spec power hpow hn

/-- C1, on the inputs `[2,3,2,1]`, `[1,2,3]` and `[1,1,1]`: the results are
`69`, `33` and `10`. -/
theorem final_solution_meets_spec_witness :
    FinalSolution.findTotalPower [2, 3, 2, 1] = 69 ∧
    FinalSolution.findTotalPower [1, 2, 3] = 33 ∧
    FinalSolution.findTotalPower [1, 1, 1] = 10 :=
  ⟨(final_solution_meets_spec [2, 3, 2, 1] (by decide) (by decide)).trans (by decide),
   (final_solution_meets_spec [1, 2, 3] (by decide) (by decide)).trans (by decide),
   (final_solution_meets_spec [1, 1, 1] (by decide) (by decide)).trans (by decide)⟩

/-- C2. On its driver's input `[2,3,2,1]`, `findTotalPower` of
`solution_fast.cpp` returns `65`, whereas the brute force of `solution.cpp` and
the specification give the expected `69`; on `[1,2,3]` it returns `25`, not `33`. -/
theorem solution_fast_driver_result :
    SolutionFast.findTotalPower [2, 3, 2, 1] = 65 ∧
    Solution.findTotalPower [2, 3, 2, 1] = 69 ∧
    specTotalPower [2, 3, 2, 1] = 69 ∧
    SolutionFast.findTotalPower [1, 2, 3] = 25 ∧
    Solution.findTotalPower [1, 2, 3] = 33 := by
  decide

/-- C3. Every subarray `[l, r]` lies in the window
`prevSmaller[i] < l <= i <= r < nextSmaller[i]` of exactly one index `i`. -/
theorem window_index_existsUnique (power : List Int) (l r : Nat) (hlr : l ≤ r)
    (hr : r < power.length) : ∃! i, InWindow power i l r := by
  obtain ⟨i, hi, huniq⟩ := existsUnique_designated power l r hlr
  refine ⟨i, (inWindow_iff_designated power i l r hr).2 hi, fun i' hi' => ?_⟩
  exact huniq i' ((inWindow_iff_designated power i' l r hr).1 hi')

/-- C3, on the subarray `[0, 2]` of `[1,1,1]` and the subarray `[0, 2]` of
`[2,3,2,1]`. -/
theorem window_index_existsUnique_witness :
    (∃! i, InWindow [1, 1, 1] i 0 2) ∧ (∃! i, InWindow [2, 3, 2, 1] i 0 2) :=
  ⟨window_index_existsUnique [1, 1, 1] 0 2 (by decide) (by decide),
   window_index_existsUnique [2, 3, 2, 1] 0 2 (by decide) (by decide)⟩

/-- C4. After the left-to-right pass, when an index `j < i` with
`power[j] < power[i]` exists, `prevSmaller[i]` is the greatest such index; and
`prevSmaller[i]` is `-1` exactly when no such index exists. -/
theorem prevSmaller_greatest (power : List Int) (i : Nat) (hi : i < power.length) :
    ((∃ j, j < i ∧ nth power j < nth power i) →
      ∃ j : Nat, nth (prevSmaller power) i = (j : Int) ∧
        IsGreatest {k | k < i ∧ nth power k < nth power i} j) ∧
    (nth (prevSmaller power) i = -1 ↔ ¬ ∃ j, j < i ∧ nth power j < nth power i) := by
  rcases prevSmaller_boundary power i hi with ⟨hv, hall⟩ | ⟨t, hv, hti, hlt, hall⟩
  · have hnone : ¬ ∃ j, j < i ∧ nth power j < nth power i := by
      rintro ⟨j, hj, hlt⟩
      exact absurd hlt (not_lt.2 (hall j hj))
    exact ⟨fun h => absurd h hnone, fun _ => hnone, fun _ => hv⟩
  · refine ⟨fun _ => ⟨t, hv, ⟨hti, hlt⟩, ?_⟩, fun h => ?_, fun h => absurd ⟨t, hti, hlt⟩ h⟩
    · rintro k ⟨hk, hklt⟩
      by_contra hcon
      exact absurd hklt (not_lt.2 (hall k (not_le.1 hcon) hk))
    · rw [hv] at h; omega

/-- C4, at index `1` of `[2,3,2,1]`, where index `0` holds a smaller value; the
pass leaves `prevSmaller = [-1, 0, -1, -1]`. -/
theorem prevSmaller_greatest_witness :
    (∃ j : Nat, nth (prevSmaller [2, 3, 2, 1]) 1 = (j : Int) ∧
      IsGreatest {k | k < 1 ∧ nth [2, 3, 2, 1] k < nth [2, 3, 2, 1] 1} j) ∧
    prevSmaller [2, 3, 2, 1] = [-1, 0, -1, -1] :=
  ⟨(prevSmaller_greatest [2, 3, 2, 1] 1 (by decide)).1 ⟨0, by decide, by decide⟩, by decide⟩

/-- C5. After the right-to-left pass, when an index `j > i` with
`power[j] <= power[i]` exists, `nextSmaller[i]` is the smallest such index; and
`nextSmaller[i]` is `n` exactly when no such index exists. -/
theorem nextSmaller_least (power : List Int) (i : Nat) (hi : i < power.length) :
    ((∃ j, i < j ∧ j < power.length ∧ nth power j ≤ nth power i) →
      ∃ j : Nat, nth (nextSmaller power) i = (j : Int) ∧
        IsLeast {k | i < k ∧ k < power.length ∧ nth power k ≤ nth power i} j) ∧
    (nth (nextSmaller power) i = (power.length : Int) ↔
      ¬ ∃ j, i < j ∧ j < power.length ∧ nth power j ≤ nth power i) := by
  rcases nextSmaller_boundary power i hi with ⟨hv, hall⟩ | ⟨t, hv, hit, htn, hle, hall⟩
  · have hnone : ¬ ∃ j, i < j ∧ j < power.length ∧ nth power j ≤ nth power i := by
      rintro ⟨j, hj, hjn, hle⟩
      exact absurd hle (not_le.2 (hall j hj hjn))
    exact ⟨fun h => absurd h hnone, fun _ => hnone, fun _ => hv⟩
  · refine ⟨fun _ => ⟨t, hv, ⟨hit, htn, hle⟩, ?_⟩, fun h => ?_,
      fun h => absurd ⟨t, hit, htn, hle⟩ h⟩
    · rintro k ⟨hk, -, hkle⟩
      by_contra hcon
      exact absurd hkle (not_le.2 (hall k hk (not_le.1 hcon)))
    · rw [hv] at h; omega

/-- C5, at index `0` of `[2,3,2,1]`, where index `2` holds an equal value; the
pass leaves `nextSmaller = [2, 2, 3, 4]`. -/
theorem nextSmaller_least_witness :
    (∃ j : Nat, nth (nextSmaller [2, 3, 2, 1]) 0 = (j : Int) ∧
      IsLeast {k | 0 < k ∧ k < [2, 3, 2, 1].length ∧
        nth [2, 3, 2, 1] k ≤ nth [2, 3, 2, 1] 0} j) ∧
    nextSmaller [2, 3, 2, 1] = [2, 2, 3, 4] :=
  ⟨(nextSmaller_least [2, 3, 2, 1] 0 (by decide)).1 ⟨2, by decide, by decide, by decide⟩,
   by decide⟩

/-- C6. For an index `i` with `L = prevSmaller[i]`, `R = nextSmaller[i]` and a
subarray `[l, r]` with `l <= i <= r`: `power[i]` is the minimum of
`power[l..r]` with `i` its designated position if and only if `L < l` and
`r < R`; in particular `power[i] = min(power[l..r])` on the whole window. -/
theorem designated_iff_window (power : List Int) (i l r : Nat) (hl : l ≤ i) (hir : i ≤ r)
    (hr : r < power.length) :
    (IsDesignatedMin power l r i ↔
      nth (prevSmaller power) i < (l : Int) ∧ (r : Int) < nth (nextSmaller power) i) ∧
    (nth (prevSmaller power) i < (l : Int) → (r : Int) < nth (nextSmaller power) i →
      nth power i = subMin power l r) := by
  have hiff := inWindow_iff_designated power i l r hr
  refine ⟨⟨fun h => ?_, fun h => hiff.1 ⟨h.1, hl, hir, h.2⟩⟩, fun h1 h2 => ?_⟩
  · have hw := hiff.2 h
    exact ⟨hw.1, hw.2.2.2⟩
  · exact (hiff.1 ⟨h1, hl, hir, h2⟩).2.2.1

/-- C6, at index `2` of `[2,3,2,1]` (`L = -1`, `R = 3`) and the subarray
`[0, 2]`, whose minimum `2` occurs at positions `0` and `2`. -/
theorem designated_iff_window_witness :
    IsDesignatedMin [2, 3, 2, 1] 0 2 2 ∧ nth [2, 3, 2, 1] 2 = subMin [2, 3, 2, 1] 0 2 :=
  ⟨(designated_iff_window [2, 3, 2, 1] 2 0 2 (by decide) (by decide) (by decide)).1.2
      ⟨by decide, by decide⟩,
   (designated_iff_window [2, 3, 2, 1] 2 0 2 (by decide) (by decide) (by decide)).2
      (by decide) (by decide)⟩

/-- C7, as amended. For every sequence and all integers `-1 <= L < i < R <= n`,
the enumerated double sum over `l` in `(L, i]` and `r` in `[i, R)` of
`sum(power[l..r])` equals the collapsed sum over `j` in `(L, R)` of
`power[j] * countLeft(j) * countRight(j)`; and when moreover every element is a
non-negative `int` and `n < 2^31`, the `j` loop of `final_solution.cpp` leaves
in `sumOfSums` the value that the `l`, `r` double loop of
`findTotalPower_optimized.cpp` leaves in `contribution`. -/
theorem enumerated_eq_collapsed (power : List Int) (L R i : Int) (hL : -1 ≤ L) (hLi : L < i)
    (hiR : i < R) (hR : R ≤ power.length) :
    enumeratedSum power L R i = collapsedSum power L R i ∧
    ((∀ x ∈ power, 0 ≤ x ∧ x < 2 ^ 31) → power.length < 2 ^ 31 →
      FinalSolution.sumOfSums power L R i =
        Optimized.contribution (Optimized.prefixSum power) L R i) := by
  refine ⟨enumeratedSum_eq_collapsedSum power L R i hLi hiR, fun hpow hn => ?_⟩
  rw [FinalSolution.sumOfSums_eq power L R i hpow hn hL hLi hiR hR,
    Optimized.contribution_eq power hpow hn L R i hL hiR hR,
    enumeratedSum_eq_collapsedSum power L R i hLi hiR]

/-- C7, on `[2,3,2,1]` at `i = 2` with its boundaries `L = -1`, `R = 3`. -/
theorem enumerated_eq_collapsed_witness :
    enumeratedSum [2, 3, 2, 1] (-1) 3 2 = collapsedSum [2, 3, 2, 1] (-1) 3 2 ∧
    FinalSolution.sumOfSums [2, 3, 2, 1] (-1) 3 2 =
      Optimized.contribution (Optimized.prefixSum [2, 3, 2, 1]) (-1) 3 2 :=
  ⟨(enumerated_eq_collapsed [2, 3, 2, 1] (-1) 3 2 (by decide) (by decide) (by decide)
      (by decide)).1,
   (enumerated_eq_collapsed [2, 3, 2, 1] (-1) 3 2 (by decide) (by decide) (by decide)
      (by decide)).2 (by decide) (by decide)⟩

/-- C7 as stated fails on a sequence with a negative element: on `[-5]`, at
`i = 0` with the boundaries `L = -1`, `R = 1` that the passes build, the exact
sums agree, but the `j` loop of `final_solution.cpp` leaves `1000000002` in
`sumOfSums` (the helper `mod` normalises) while the `l`, `r` double loop of
`findTotalPower_optimized.cpp` leaves `-5` in `contribution` (plain `%`
truncates). -/
theorem loops_differ_on_negative_element :
    (nth (prevSmaller [-5]) 0 = -1 ∧ nth (nextSmaller [-5]) 0 = 1) ∧
    ((-1 : Int) ≤ -1 ∧ (-1 : Int) < 0 ∧ (0 : Int) < 1 ∧
      (1 : Int) ≤ (([-5] : List Int).length : Int)) ∧
    FinalSolution.sumOfSums [-5] (-1) 1 0 = 1000000002 ∧
    Optimized.contribution (Optimized.prefixSum [-5]) (-1) 1 0 = -5 ∧
    ¬ (FinalSolution.sumOfSums [-5] (-1) 1 0 =
      Optimized.contribution (Optimized.prefixSum [-5]) (-1) 1 0) := by
  decide

/-- C8. In `solution_fast.cpp`, on non-negative `int` inputs, `prefixSum[0] = 0`,
`prefixSum[k] = (power[0] + ... + power[k-1]) mod MOD` for every `k <= n`, and
for `a <= b < n` the normalised difference of `prefixSum[b+1]` and
`prefixSum[a]`, as the code computes it and as
`(prefixSum[b+1] - prefixSum[a] + MOD) % MOD`, is `sum(power[a..b]) mod MOD`. -/
theorem solution_fast_prefixSum (power : List Int) (hpow : ∀ x ∈ power, 0 ≤ x ∧ x < 2 ^ 31) :
    nth (SolutionFast.prefixSum power) 0 = 0 ∧
    (∀ k, k ≤ power.length →
      nth (SolutionFast.prefixSum power) k = (∑ j ∈ Finset.range k, nth power j) % MOD) ∧
    (∀ a b, a ≤ b → b < power.length →
      SolutionFast.normDiff (nth (SolutionFast.prefixSum power) (b + 1))
        (nth (SolutionFast.prefixSum power) a) = subSum power a b % MOD ∧
      (nth (SolutionFast.prefixSum power) (b + 1) - nth (SolutionFast.prefixSum power) a
        + MOD).tmod MOD = subSum power a b % MOD) := by
  have hM : MOD = 1000000007 := rfl
  have hps := SolutionFast.prefixSum_reduced power hpow
  refine ⟨?_, fun k hk => hps k hk, fun a b hab hb => ?_⟩
  · rw [hps 0 (Nat.zero_le _)]; simp [exactPrefixSum]
  · rw [hps (b + 1) (by omega), hps a (by omega)]
    have h1 := Int.emod_nonneg (exactPrefixSum power (b + 1)) (show MOD ≠ 0 by decide)
    have h2 := Int.emod_lt_of_pos (exactPrefixSum power (b + 1)) (show 0 < MOD by decide)
    have h3 := Int.emod_nonneg (exactPrefixSum power a) (show MOD ≠ 0 by decide)
    have h4 := Int.emod_lt_of_pos (exactPrefixSum power a) (show 0 < MOD by decide)
    have hdiff : (exactPrefixSum power (b + 1) % MOD - exactPrefixSum power a % MOD) % MOD =
        subSum power a b % MOD := by
      rw [← Int.sub_emod, exactPrefixSum_sub power a b (by omega)]
    refine ⟨?_, ?_⟩
    · rw [SolutionFast.normDiff_eq _ _ ⟨h1, h2⟩ ⟨h3, h4⟩, hdiff]
    · rw [Int.tmod_eq_emod (by omega) (by decide), Int.add_emod_self, hdiff]

/-- C8, on `[2,3,2,1]`, whose reduced prefix sums are `0, 2, 5, 7, 8`. -/
theorem solution_fast_prefixSum_witness :
    nth (SolutionFast.prefixSum [2, 3, 2, 1]) 0 = 0 ∧
    nth (SolutionFast.prefixSum [2, 3, 2, 1]) 4 =
      (∑ j ∈ Finset.range 4, nth [2, 3, 2, 1] j) % MOD ∧
    SolutionFast.normDiff (nth (SolutionFast.prefixSum [2, 3, 2, 1]) (2 + 1))
      (nth (SolutionFast.prefixSum [2, 3, 2, 1]) 1) = subSum [2, 3, 2, 1] 1 2 % MOD :=
  ⟨(solution_fast_prefixSum [2, 3, 2, 1] (by decide)).1,
   (solution_fast_prefixSum [2, 3, 2, 1] (by decide)).2.1 4 (by decide),
   ((solution_fast_prefixSum [2, 3, 2, 1] (by decide)).2.2 1 2 (by decide) (by decide)).1⟩

/-- C9. On every single-element sequence `[x]` with `0 <= x < 2^31`,
`findTotalPower` of `final_solution.cpp` returns `x * x mod 1000000007`. -/
theorem final_solution_singleton (x : Int) (h0 : 0 ≤ x) (h1 : x < 2 ^ 31) :
    FinalSolution.findTotalPower [x] = (x * x) % MOD := by
  rw [FinalSolution.findTotalPower_eq_spec [x] (by simpa using ⟨h0, h1⟩) (by simp)]
  simp [specTotalPower, bruteForceSum, subMin, minFrom, subSum, nth]

/-- C9, on `[5]`: the result is `25`. -/
theorem final_solution_singleton_witness : FinalSolution.findTotalPower [5] = 25 :=
  (final_solution_singleton 5 (by decide) (by decide)).trans (by decide)

/-- C10. On the empty sequence both `findTotalPower` of `final_solution.cpp`
and the brute-force `findTotalPower` of `solution.cpp` return `0`. -/
theorem findTotalPower_nil :
    FinalSolution.findTotalPower [] = 0 ∧ Solution.findTotalPower [] = 0 := by
  decide

/-- C11. The value returned by `findTotalPower` of `final_solution.cpp` lies in
`[0, 1000000006]`, on every input (in particular on every sequence of
non-negative integers below `2^31`). -/
theorem final_solution_result_range (power : List Int) :
    0 ≤ FinalSolution.findTotalPower power ∧ FinalSolution.findTotalPower power ≤ 1000000006 := by
  have hM : MOD = 1000000007 := rfl
  have h := foldl_mod_range
    (FinalSolution.answerStep power (prevSmaller power) (nextSmaller power))
    (fun acc x => ⟨FinalSolution.mod_nonneg _, FinalSolution.mod_lt _⟩)
    (List.range power.length) 0 (by decide)
  unfold FinalSolution.findTotalPower
  rw [wrap32_eq _ (by omega) (by omega)]
  omega

/-- C15. For every `x` (every signed 64-bit value included, negative or not)
the helper `mod` of `final_solution.cpp` returns a value in `[0, MOD)` that is
congruent to `x` modulo `MOD`, and the intermediate `(x % MOD) + MOD` stays
inside the signed 64-bit range; the helper `mod` of `solution_O_n.cpp` is the
same function. -/
theorem final_solution_mod_spec (x : Int) :
    0 ≤ FinalSolution.mod x ∧ FinalSolution.mod x < 1000000007 ∧
    FinalSolution.mod x ≡ x [ZMOD 1000000007] ∧
    -2 ^ 63 ≤ x.tmod MOD + MOD ∧ x.tmod MOD + MOD < 2 ^ 63 ∧
    wrap64 (x.tmod MOD + MOD) = x.tmod MOD + MOD ∧
    SolutionOn.mod x = FinalSolution.mod x := by
  have hM : MOD = 1000000007 := rfl
  obtain ⟨h1, h2, -⟩ := tmod_bounds x MOD (by decide)
  refine ⟨FinalSolution.mod_nonneg x, FinalSolution.mod_lt x, ?_, by omega, by omega,
    wrap64_eq _ (by omega) (by omega), rfl⟩
  unfold Int.ModEq
  rw [FinalSolution.mod_eq_emod, hM, Int.emod_emod_of_dvd _ (dvd_refl _)]

/-- C20. For every input and every index `i < n`:
`-1 <= prevSmaller[i] < i < nextSmaller[i] <= n`; the distances `left`, `right`
(lines 53-54) and, for every `j` of the contribution loop, `leftCount` and
`rightCount` are at least `1`; every such `j` is an index in `[0, n)`; and the
passes with checked reads (`st.top()` on an empty stack, or an out-of-range
vector access, being an error) run without error to the same boundaries. -/
theorem final_solution_safety (power : List Int) (i : Nat) (hi : i < power.length) :
    (-1 ≤ nth (prevSmaller power) i ∧ nth (prevSmaller power) i < (i : Int) ∧
      (i : Int) < nth (nextSmaller power) i ∧ nth (nextSmaller power) i ≤ (power.length : Int)) ∧
    (1 ≤ (i : Int) - nth (prevSmaller power) i ∧ 1 ≤ nth (nextSmaller power) i - (i : Int)) ∧
    (∀ j ∈ intRange (nth (prevSmaller power) i + 1) (nth (nextSmaller power) i),
      1 ≤ FinalSolution.leftCount (nth (prevSmaller power) i) i j ∧
      1 ≤ FinalSolution.rightCount (nth (nextSmaller power) i) i j ∧
      0 ≤ j ∧ j < (power.length : Int)) ∧
    prevSmallerPassChecked power = some (prevSmallerPass power) ∧
    nextSmallerPassChecked power = some (nextSmallerPass power) := by
  obtain ⟨e1, e2, a1, a2, a3, -⟩ := window_spec power i hi
  refine ⟨by omega, by omega, fun j hj => ?_, ?_, ?_⟩
  · rw [mem_intRange] at hj
    unfold FinalSolution.leftCount FinalSolution.rightCount
    split_ifs <;> omega
  · exact passChecked_eq _ _ power _ _ (fun k hk => List.mem_range.1 hk) (by simp) (by simp)
  · exact passChecked_eq _ _ power _ _ (fun k hk => List.mem_range.1 (List.mem_reverse.1 hk))
      (by simp) (by simp)

/-- C20, at index `2` of `[2,3,2,1]` (window `(-1, 3)`). -/
theorem final_solution_safety_witness :
    (-1 ≤ nth (prevSmaller [2, 3, 2, 1]) 2 ∧ nth (prevSmaller [2, 3, 2, 1]) 2 < ((2 : Nat) : Int) ∧
      ((2 : Nat) : Int) < nth (nextSmaller [2, 3, 2, 1]) 2 ∧
      nth (nextSmaller [2, 3, 2, 1]) 2 ≤ (([2, 3, 2, 1] : List Int).length : Int)) ∧
    prevSmallerPassChecked [2, 3, 2, 1] = some (prevSmallerPass [2, 3, 2, 1]) :=
  ⟨(final_solution_safety [2, 3, 2, 1] 2 (by decide)).1,
   (final_solution_safety [2, 3, 2, 1] 2 (by decide)).2.2.2.1⟩

/-- C12. On every input with `0 <= power[k] < 2^31` and `n < 2^31`, every
intermediate value of `final_solution.cpp` (`leftCount * rightCount`,
`freq * power[j]`, `sumOfSums + contribution`, `power[i] * sumOfSums`,
`answer + totalContribution`) stays within the signed 64-bit range, and the
result computed with 64-bit wrap-around equals the result computed over
unbounded integers. -/
theorem final_solution_no_overflow (power : List Int)
    (hpow : ∀ x ∈ power, 0 ≤ x ∧ x < 2 ^ 31) (hn : power.length < 2 ^ 31) :
    (∀ v ∈ FinalSolution.intermediates power, -2 ^ 63 ≤ v ∧ v < 2 ^ 63) ∧
    wrap32 (FinalSolution.findTotalPowerLog power).1 = FinalSolution.findTotalPower power ∧
    FinalSolution.findTotalPower power = FinalSolution.findTotalPowerExact power := by
  refine ⟨FinalSolution.intermediates_inRange power hpow hn,
    FinalSolution.findTotalPowerLog_fst power, ?_⟩
  rw [FinalSolution.findTotalPower_eq_sum power hpow hn,
    FinalSolution.findTotalPowerExact_eq_sum]
  congr 1
  apply Finset.sum_congr rfl
  intro i hi
  obtain ⟨e1, e2, a1, a2, a3, -⟩ := window_spec power i (Finset.mem_range.1 hi)
  rw [enumeratedSum_eq_collapsedSum power _ _ i (by omega) (by omega)]

/-- C12, on three elements equal to `2^31 - 1`. -/
theorem final_solution_no_overflow_witness :
    (∀ v ∈ FinalSolution.intermediates [2147483647, 2147483647, 2147483647],
      -2 ^ 63 ≤ v ∧ v < 2 ^ 63) ∧
    FinalSolution.findTotalPower [2147483647, 2147483647, 2147483647] =
      FinalSolution.findTotalPowerExact [2147483647, 2147483647, 2147483647] :=
  ⟨(final_solution_no_overflow [2147483647, 2147483647, 2147483647] (by decide) (by decide)).1,
   (final_solution_no_overflow [2147483647, 2147483647, 2147483647] (by decide)
      (by decide)).2.2⟩

/-- C13. On ten elements equal to `10^9`, the product `minPower * sumPower`
of the group `[0, 9]` is `10^19`, beyond the signed 64-bit range; with
wrap-around `solution.cpp` and `findTotalPower.cpp` return `-582333228`, whereas
the exact sum reduced modulo `1000000007` is `10780`. -/
theorem brute_force_overflow :
    ((List.range' 0 10).foldl (Solution.innerStep (List.replicate 10 1000000000))
      (nth (List.replicate 10 1000000000) 0, 0, 0)).1 *
    ((List.range' 0 10).foldl (Solution.innerStep (List.replicate 10 1000000000))
      (nth (List.replicate 10 1000000000) 0, 0, 0)).2.1 = 10 ^ 19 ∧
    FindTotalPower.minPower (List.replicate 10 1000000000) 0 9 *
      FindTotalPower.sumPower (List.replicate 10 1000000000) 0 9 = 10 ^ 19 ∧
    (2 : Int) ^ 63 ≤ 10 ^ 19 ∧
    Solution.findTotalPower (List.replicate 10 1000000000) = -582333228 ∧
    FindTotalPower.findTotalPower (List.replicate 10 1000000000) = -582333228 ∧
    specTotalPower (List.replicate 10 1000000000) = 10780 := by
  decide

/-- C14. The number of executions of the `j`-loop body of `solution_O_n.cpp`
is the sum over `i` of `right[i] - left[i] - 1`; on a constant sequence of
length `n` it is `n * (n + 1) / 2`; hence no constant `c` bounds it by `c * n`. -/
theorem solution_O_n_quadratic :
    (∀ power : List Int, (SolutionOn.jLoopIterations power : Int) =
      ∑ i ∈ Finset.range power.length,
        (nth (nextSmaller power) i - nth (prevSmaller power) i - 1)) ∧
    (∀ n : Nat, 2 * SolutionOn.jLoopIterations (List.replicate n 0) = n * (n + 1)) ∧
    (∀ c : Nat, ∃ power : List Int, c * power.length < SolutionOn.jLoopIterations power) ∧
    SolutionOn.jLoopIterations (List.replicate 8 0) = 36 := by
  refine ⟨SolutionOn.jLoopIterations_eq, SolutionOn.jLoopIterations_replicate, fun c => ?_, ?_⟩
  · refine ⟨List.replicate (2 * c + 1) 0, ?_⟩
    have h := SolutionOn.jLoopIterations_replicate (2 * c + 1)
    rw [List.length_replicate]
    nlinarith
  · have h := SolutionOn.jLoopIterations_replicate 8
    omega

/-- C16. After `k` iterations of the first pass the top of the stack is the
index `k - 1` just pushed and, read from bottom to top, the stack holds
strictly increasing indices with strictly increasing `power` values; after `k`
iterations of the second pass the top is `n - k` and, from bottom to top, the
indices are strictly decreasing and their `power` values non-decreasing. -/
theorem stack_monotone (power : List Int) (k : Nat) (hk0 : 0 < k) (hk : k ≤ power.length) :
    ((prevSmallerPassAfter power k).1.head? = some (k - 1) ∧
      (prevSmallerPassAfter power k).1.reverse.Pairwise (fun a b => a < b) ∧
      ((prevSmallerPassAfter power k).1.reverse.map (nth power)).Pairwise (fun x y => x < y)) ∧
    ((nextSmallerPassAfter power k).1.head? = some (power.length - k) ∧
      (nextSmallerPassAfter power k).1.reverse.Pairwise (fun a b => a > b) ∧
      ((nextSmallerPassAfter power k).1.reverse.map (nth power)).Pairwise (fun x y => x ≤ y)) := by
  obtain ⟨p1, p2, p3⟩ := prevSmallerPassAfter_stack power k hk0 hk
  obtain ⟨q1, q2, q3⟩ := nextSmallerPassAfter_stack power k hk0 hk
  refine ⟨⟨p1, List.pairwise_reverse.2 p2, ?_⟩, ⟨q1, List.pairwise_reverse.2 q2, ?_⟩⟩
  · rw [List.pairwise_map]
    exact List.pairwise_reverse.2 p3
  · rw [List.pairwise_map]
    exact List.pairwise_reverse.2 q3

/-- C16, after three iterations on `[2,3,2,1]`: the first pass holds the stack
`[2]` (top first), the second pass `[1, 2, 3]`. -/
theorem stack_monotone_witness :
    ((prevSmallerPassAfter [2, 3, 2, 1] 3).1.head? = some (3 - 1) ∧
      (prevSmallerPassAfter [2, 3, 2, 1] 3).1.reverse.Pairwise (fun a b => a < b) ∧
      ((prevSmallerPassAfter [2, 3, 2, 1] 3).1.reverse.map (nth [2, 3, 2, 1])).Pairwise
        (fun x y => x < y)) ∧
    ((nextSmallerPassAfter [2, 3, 2, 1] 3).1.reverse.map (nth [2, 3, 2, 1])).Pairwise
      (fun x y => x ≤ y) ∧
    (prevSmallerPassAfter [2, 3, 2, 1] 3).1 = [2] ∧
    (nextSmallerPassAfter [2, 3, 2, 1] 3).1 = [1, 2, 3] :=
  ⟨(stack_monotone [2, 3, 2, 1] 3 (by decide) (by decide)).1,
   (stack_monotone [2, 3, 2, 1] 3 (by decide) (by decide)).2.2.2, by decide, by decide⟩

/-- C17. On non-negative `int` inputs `findTotalPower_optimized.cpp` returns
the specified result, `69` on `[2,3,2,1]` and `33` on `[1,2,3]` like
`solution.cpp`; but on ten elements equal to `10^9` it returns `10780` while
`solution.cpp`, whose product `minPower * sumPower` overflows, returns
`-582333228`. -/
theorem optimized_vs_brute_force :
    (∀ power : List Int, (∀ x ∈ power, 0 ≤ x ∧ x < 2 ^ 31) → power.length < 2 ^ 31 →
      Optimized.findTotalPower power = specTotalPower power) ∧
    (Optimized.findTotalPower [2, 3, 2, 1] = 69 ∧ Solution.findTotalPower [2, 3, 2, 1] = 69) ∧
    (Optimized.findTotalPower [1, 2, 3] = 33 ∧ Solution.findTotalPower [1, 2, 3] = 33) ∧
    Optimized.findTotalPower (List.replicate 10 1000000000) = 10780 ∧
    Solution.findTotalPower (List.replicate 10 1000000000) = -582333228 := by
  refine ⟨Optimized.optimized_eq_spec, by decide, by decide, by decide, by decide⟩

/-- C18. On every sequence of non-negative `int` values, `findTotalPower` of
`solution_optimal.cpp` returns the same value as `findTotalPower` of
`final_solution.cpp`. -/
theorem optimal_eq_final (power : List Int)
    (hpow : ∀ x ∈ power, 0 ≤ x ∧ x < 2 ^ 31) (hn : power.length < 2 ^ 31) :
    SolutionOptimal.findTotalPower power = FinalSolution.findTotalPower power := by
  rw [SolutionOptimal.optimal_eq_spec power hpow hn,
    FinalSolution.findTotalPower_eq_spec power hpow hn]

/-- C18, on the driver's inputs `[2,3,2,1]` and `[1,2,3]`: both return `69`
and `33`. -/
theorem optimal_eq_final_witness :
    (SolutionOptimal.findTotalPower [2, 3, 2, 1] = FinalSolution.findTotalPower [2, 3, 2, 1] ∧
      SolutionOptimal.findTotalPower [2, 3, 2, 1] = 69) ∧
    (SolutionOptimal.findTotalPower [1, 2, 3] = FinalSolution.findTotalPower [1, 2, 3] ∧
      SolutionOptimal.findTotalPower [1, 2, 3] = 33) :=
  ⟨⟨optimal_eq_final [2, 3, 2, 1] (by decide) (by decide), by decide⟩,
   ⟨optimal_eq_final [1, 2, 3] (by decide) (by decide), by decide⟩⟩

/-- C19. On every input the O(n^3) `findTotalPower` of `findTotalPower.cpp`
and the O(n^2) `findTotalPower` of `solution.cpp` return the same value. -/
theorem brute_force_variants_agree (power : List Int) :
    FindTotalPower.findTotalPower power = Solution.findTotalPower power := by
  unfold FindTotalPower.findTotalPower Solution.findTotalPower
  congr 1
  have : Solution.outerStep power = FindTotalPower.outerStep power := by
    funext total l; exact solution_outerStep_eq_cubic power total l
  rw [this]

/-- C21. For every input sequence of length `n`, the sum over all `i` of
`left * right = (i - prevSmaller[i]) * (nextSmaller[i] - i)` equals
`n * (n + 1) / 2`, the number of contiguous subarrays; on `[2,3,2,1]` the
products are `2, 1, 3, 4` and sum to `10`. -/
theorem window_sizes_sum (power : List Int) :
    ∑ i ∈ Finset.range power.length,
      FinalSolution.left (prevSmaller power) i * FinalSolution.right (nextSmaller power) i =
      (power.length : Int) * ((power.length : Int) + 1) / 2 ∧
    ∑ i ∈ Finset.range power.length,
      ((i : Int) - nth (prevSmaller power) i) * (nth (nextSmaller power) i - (i : Int)) =
      (power.length : Int) * ((power.length : Int) + 1) / 2 ∧
    (List.range 4).map (fun i => FinalSolution.left (prevSmaller [2, 3, 2, 1]) i *
      FinalSolution.right (nextSmaller [2, 3, 2, 1]) i) = [2, 1, 3, 4] := by
  have h := two_mul_sum_left_mul_right power
  have h' : ∑ i ∈ Finset.range power.length,
      FinalSolution.left (prevSmaller power) i * FinalSolution.right (nextSmaller power) i =
      (power.length : Int) * ((power.length : Int) + 1) / 2 := by
    rw [← h, Int.mul_ediv_cancel_left _ (by decide)]
  exact ⟨h', h', by decide⟩

end TotalPower
